import Mathlib

/-!
Verification of the Marzipan CoreWar emulator core (marzipan-core) and its
loadfile parser (redcode-parser), as a shallow embedding in Lean.

The embedding follows the Rust sources:
  - redcode/src/redcode.rs                         (instruction model)
  - marzipan-core/src/emulators/generic_emulator.rs (offset)
  - .../generic_emulator/bytecode.rs               (encode, decode)
  - .../generic_emulator/processes.rs              (ProcessQueueSet)
  - .../generic_emulator/pspace.rs                 (PSpace)
  - .../generic_emulator/operands.rs               (evaluate)
  - .../generic_emulator/emulation_operations.rs   (opcode handlers)
  - .../generic_emulator/dispatch.rs               (Emulator)
  - redcode-parser/src/loadfile_parser.rs          (parse loop)

Machine integers: CoreAddr is u32 in the source; all in-core values are kept
below core_size, which is itself at most 2^32 - 1, so u32 arithmetic never
wraps and values are modelled as Nat.  Signed i64 intermediates in offset()
are modelled as Int; the checked i64 operations there cannot overflow for the
operand ranges that occur (all inputs below 2^32), so the checked-overflow
error arms are not modelled.  Fallible operations return Except EmuError.
Rust HashMaps are modelled as association lists whose insert prepends after
erasing the key, which is lookup-equivalent.
-/

namespace Marzipan

/-- Error kinds of EmulatorError (emulator_core.rs).  The static message
strings are dropped; only the kind is observable to the claims. -/
inductive EmuError where
  | invalidParam
  | unsupportedFeature
  | internalError
  | unimplementedError
deriving DecidableEq

abbrev EmuResult (α : Type) := Except EmuError α

instance {ε α : Type} [DecidableEq ε] [DecidableEq α] :
    DecidableEq (Except ε α) := fun a b =>
  match a, b with
  | .ok x, .ok y =>
      if h : x = y then .isTrue (by rw [h])
      else .isFalse (by intro hc; cases hc; exact h rfl)
  | .error x, .error y =>
      if h : x = y then .isTrue (by rw [h])
      else .isFalse (by intro hc; cases hc; exact h rfl)
  | .ok _, .error _ => .isFalse (by intro hc; cases hc)
  | .error _, .ok _ => .isFalse (by intro hc; cases hc)

/-- Opcode enum from redcode.rs (19 variants, discriminants 0..18). -/
inductive Opcode where
  | Dat | Mov | Add | Sub | Mul | Div | Mod | Jmp | Jmz | Jmn
  | Djn | Spl | Slt | Cmp | Seq | Sne | Nop | Ldp | Stp
deriving DecidableEq

/-- Modifier enum from redcode.rs (7 variants, discriminants 0..6). -/
inductive Modifier where
  | A | B | AB | BA | F | X | I
deriving DecidableEq

/-- AddrMode enum from redcode.rs (8 variants, discriminants 0..7). -/
inductive AddrMode where
  | Immediate | Direct | IndirectA | IndirectB
  | PredecA | PredecB | PostincA | PostincB
deriving DecidableEq

/-- Instruction struct from redcode.rs. -/
structure Instruction where
  opcode : Opcode
  modifier : Modifier
  a_addr_mode : AddrMode
  b_addr_mode : AddrMode
deriving DecidableEq

/-- CompleteInstruction struct from redcode.rs: fields are u32 FieldValues. -/
structure CompleteInstruction where
  instr : Instruction
  a_field : Nat
  b_field : Nat
deriving DecidableEq

/-- Default instruction Dat.F #0, #0 (impl Default for Instruction). -/
def defaultInstruction : Instruction :=
  ⟨Opcode.Dat, Modifier.F, AddrMode.Immediate, AddrMode.Immediate⟩

/-- Default CompleteInstruction (derive Default on CompleteInstruction). -/
def defaultCI : CompleteInstruction := ⟨defaultInstruction, 0, 0⟩

instance : Inhabited CompleteInstruction := ⟨defaultCI⟩

/-! ## Bytecode codec (bytecode.rs)

encode packs the four enum discriminants into the four big-endian bytes of a
u32; decode unpacks and checks each byte against the enum ranges. -/

/-- to_u8 for Opcode (ToPrimitive derive: declaration order discriminants). -/
def Opcode.toU8 : Opcode → Nat
  | .Dat => 0 | .Mov => 1 | .Add => 2 | .Sub => 3 | .Mul => 4
  | .Div => 5 | .Mod => 6 | .Jmp => 7 | .Jmz => 8 | .Jmn => 9
  | .Djn => 10 | .Spl => 11 | .Slt => 12 | .Cmp => 13 | .Seq => 14
  | .Sne => 15 | .Nop => 16 | .Ldp => 17 | .Stp => 18

/-- from_u8 for Opcode (FromPrimitive derive). -/
def Opcode.fromU8 : Nat → Option Opcode
  | 0 => some .Dat | 1 => some .Mov | 2 => some .Add | 3 => some .Sub
  | 4 => some .Mul | 5 => some .Div | 6 => some .Mod | 7 => some .Jmp
  | 8 => some .Jmz | 9 => some .Jmn | 10 => some .Djn | 11 => some .Spl
  | 12 => some .Slt | 13 => some .Cmp | 14 => some .Seq | 15 => some .Sne
  | 16 => some .Nop | 17 => some .Ldp | 18 => some .Stp
  | _ => none

/-- to_u8 for Modifier. -/
def Modifier.toU8 : Modifier → Nat
  | .A => 0 | .B => 1 | .AB => 2 | .BA => 3 | .F => 4 | .X => 5 | .I => 6

/-- from_u8 for Modifier. -/
def Modifier.fromU8 : Nat → Option Modifier
  | 0 => some .A | 1 => some .B | 2 => some .AB | 3 => some .BA
  | 4 => some .F | 5 => some .X | 6 => some .I | _ => none

/-- to_u8 for AddrMode. -/
def AddrMode.toU8 : AddrMode → Nat
  | .Immediate => 0 | .Direct => 1 | .IndirectA => 2 | .IndirectB => 3
  | .PredecA => 4 | .PredecB => 5 | .PostincA => 6 | .PostincB => 7

/-- from_u8 for AddrMode. -/
def AddrMode.fromU8 : Nat → Option AddrMode
  | 0 => some .Immediate | 1 => some .Direct | 2 => some .IndirectA
  | 3 => some .IndirectB | 4 => some .PredecA | 5 => some .PredecB
  | 6 => some .PostincA | 7 => some .PostincB | _ => none

/-- encode (bytecode.rs): u32::from_be_bytes([op, modifier, a_mode, b_mode]).
The result is a u32 value below 2^32. -/
def encode (instr : Instruction) : Nat :=
  instr.opcode.toU8 * 16777216 + instr.modifier.toU8 * 65536 +
    instr.a_addr_mode.toU8 * 256 + instr.b_addr_mode.toU8

/-- decode (bytecode.rs): unpack the four big-endian bytes of a u32 and
convert each with from_u8, returning none on any invalid byte. -/
def decode (bytecode : Nat) : Option Instruction := do
  let op ← Opcode.fromU8 (bytecode / 16777216 % 256)
  let m ← Modifier.fromU8 (bytecode / 65536 % 256)
  let am ← AddrMode.fromU8 (bytecode / 256 % 256)
  let bm ← AddrMode.fromU8 (bytecode % 256)
  pure ⟨op, m, am, bm⟩

/-! ## Modular arithmetic (generic_emulator.rs : offset)

The Rust loop adds `size` to a negative delta until it is non-negative; for
size > 0 that yields the least non-negative residue, after which the sum with
`initial` is reduced with i64 rem (non-negative here).  The composite equals
Int.emod of the sum.  For size = 0 the rem arm fails with InternalError (the
negative-delta arm would not terminate in Rust; no call site reaches it). -/
def offset (initial : Nat) (off : Int) (size : Nat) : EmuResult Nat :=
  if size = 0 then .error .internalError
  else .ok (((off + (initial : Int)) % (size : Int)).toNat)

/-! ## Process queues (processes.rs) -/

/-- ProcessQueueSet: per-warrior FIFO queues with a shared cap. -/
structure ProcessQueueSet where
  queues : List (List Nat)
  maxProcesses : Nat
deriving DecidableEq

namespace ProcessQueueSet

/-- pop (processes.rs): remove and return the head of a warrior's queue. -/
def pop (pq : ProcessQueueSet) (warrior_id : Nat) :
    EmuResult (Option Nat × ProcessQueueSet) :=
  match pq.queues.get? warrior_id with
  | none => .error .internalError
  | some [] => .ok (none, pq)
  | some (p :: rest) =>
      .ok (some p, { pq with queues := pq.queues.set warrior_id rest })

/-- push_back (processes.rs): append if len < max_processes, else silently
discard. -/
def push_back (pq : ProcessQueueSet) (value : Nat) (warrior_id : Nat) :
    EmuResult ProcessQueueSet :=
  match pq.queues.get? warrior_id with
  | none => .error .internalError
  | some q =>
      if q.length < pq.maxProcesses then
        .ok { pq with queues := pq.queues.set warrior_id (q ++ [value]) }
      else .ok pq

/-- reset_queues (processes.rs): empty every queue. -/
def reset_queues (pq : ProcessQueueSet) : ProcessQueueSet :=
  { pq with queues := List.replicate pq.queues.length [] }

/-- active_warriors (processes.rs): ascending ids of non-empty queues. -/
def active_warriors (pq : ProcessQueueSet) : List Nat :=
  (List.range pq.queues.length).filter
    (fun i => !(pq.queues.getD i []).isEmpty)

/-- replace_queue (processes.rs): overwrite a warrior's queue; rejects ids out
of range and input longer than max_processes. -/
def replace_queue (pq : ProcessQueueSet) (warrior_id : Nat)
    (process_queue : List Nat) : EmuResult ProcessQueueSet :=
  if pq.queues.length ≤ warrior_id then .error .internalError
  else if pq.maxProcesses < process_queue.length then .error .internalError
  else .ok { pq with queues := pq.queues.set warrior_id process_queue }

/-- new (processes.rs): one empty queue per warrior. -/
def new (warriors processes : Nat) : ProcessQueueSet :=
  { queues := List.replicate warriors [], maxProcesses := processes }

/-- read_queue (processes.rs): copy of a warrior's queue, head first. -/
def read_queue (pq : ProcessQueueSet) (warrior_id : Nat) :
    EmuResult (List Nat) :=
  match pq.queues.get? warrior_id with
  | none => .error .internalError
  | some q => .ok q

end ProcessQueueSet

/-! ## PSPACE store (pspace.rs) -/

/-- Association-list lookup (models HashMap::get). -/
def alookup {α : Type} : List (Nat × α) → Nat → Option α
  | [], _ => none
  | (k, v) :: rest, key => if k = key then some v else alookup rest key

/-- Association-list insert-or-overwrite (models HashMap::insert). -/
def ainsert {α : Type} (l : List (Nat × α)) (k : Nat) (v : α) :
    List (Nat × α) :=
  (k, v) :: l.filter (fun p => p.1 != k)

/-- Update the value at a key if present (models HashMap::get_mut). -/
def aupdate {α : Type} (l : List (Nat × α)) (k : Nat) (f : α → α) :
    List (Nat × α) :=
  l.map (fun p => if p.1 = k then (p.1, f p.2) else p)

/-- PSpace (pspace.rs). -/
structure PSpace where
  pspace_size : Nat
  warrior_to_pin : List (Nat × Nat)
  zero_index_values : List (Nat × Nat)
  pin_to_pspace : List (Nat × List Nat)
deriving DecidableEq

namespace PSpace

/-- PSpace::new: empty maps. -/
def new (pspace_size : Nat) : PSpace := ⟨pspace_size, [], [], []⟩

/-- PSpace::read: location 0 reads the warrior-private slot; other locations
index the pin-shared array.  Any missing link is InternalError.  No reduction
modulo pspace_size is performed. -/
def read (ps : PSpace) (location : Nat) (warrior_id : Nat) : EmuResult Nat :=
  let res : Option Nat :=
    match location with
    | 0 => alookup ps.zero_index_values warrior_id
    | _ =>
        (alookup ps.warrior_to_pin warrior_id).bind fun pin =>
          (alookup ps.pin_to_pspace pin).bind fun arr => arr.get? location
  match res with
  | some v => .ok v
  | none => .error .internalError

/-- PSpace::write: same dispatch as read; overwrites. -/
def write (ps : PSpace) (location : Nat) (value : Nat) (warrior_id : Nat) :
    EmuResult PSpace :=
  match location with
  | 0 =>
      match alookup ps.zero_index_values warrior_id with
      | none => .error .internalError
      | some _ =>
          .ok { ps with zero_index_values :=
                  ainsert ps.zero_index_values warrior_id value }
  | _ =>
      match alookup ps.warrior_to_pin warrior_id with
      | none => .error .internalError
      | some pin =>
          match alookup ps.pin_to_pspace pin with
          | none => .error .internalError
          | some arr =>
              if location < arr.length then
                let newMap := ainsert ps.pin_to_pspace pin (arr.set location value)
                .ok { ps with pin_to_pspace := newMap }
              else .error .internalError

/-- PSpace::add_pspace: allocate a zero-filled array under a fresh pin. -/
def add_pspace (ps : PSpace) (pin : Nat) : EmuResult PSpace :=
  match alookup ps.pin_to_pspace pin with
  | some _ => .error .internalError
  | none =>
      let newMap := ainsert ps.pin_to_pspace pin (List.replicate ps.pspace_size 0)
      .ok { ps with pin_to_pspace := newMap }

/-- PSpace::assign_pspace: map warrior to an existing pin and set its private
index-0 slot to 0. -/
def assign_pspace (ps : PSpace) (warrior_id : Nat) (pin : Nat) :
    EmuResult PSpace :=
  match alookup ps.pin_to_pspace pin with
  | none => .error .internalError
  | some _ =>
      .ok { ps with
              warrior_to_pin := ainsert ps.warrior_to_pin warrior_id pin,
              zero_index_values := ainsert ps.zero_index_values warrior_id 0 }

end PSpace

/-! ## Operand evaluation (operands.rs) -/

/-- RegisterValue (operands.rs): a core index plus cached contents. -/
structure RegisterValue where
  idx : Nat
  instr : Instruction
  a_field : Nat
  b_field : Nat
deriving DecidableEq

/-- RegisterValues (operands.rs): the per-cycle snapshot. -/
structure RegisterValues where
  current : RegisterValue
  a : RegisterValue
  b : RegisterValue
deriving DecidableEq

/-- add (operands.rs): two field values modulo core size. -/
def opAdd (lhs rhs size : Nat) : EmuResult Nat := offset lhs (rhs : Int) size

/-- validate (operands.rs): check a value against core size. -/
def validate (val size : Nat) : EmuResult Nat :=
  if val < size then .ok val else .error .internalError

/-- One operand phase of evaluate (operands.rs steps 2-5, the A block and the
B block are this same code run twice): compute the indirect index, apply a
predecrement, resolve the target, snapshot it, apply a postincrement.  Returns
(target index, snapshot cell, updated core). -/
def evalOperand (pc fieldVal : Nat) (mode : AddrMode)
    (core : List CompleteInstruction) :
    EmuResult (Nat × CompleteInstruction × List CompleteInstruction) :=
  let size := core.length
  match opAdd fieldVal pc size with
  | .error e => .error e
  | .ok indirect =>
    let predecRes : EmuResult (List CompleteInstruction) :=
      match mode with
      | .PredecA =>
          let cell := core.getD indirect defaultCI
          match offset cell.a_field (-1) size with
          | .error e => .error e
          | .ok v => .ok (core.set indirect { cell with a_field := v })
      | .PredecB =>
          let cell := core.getD indirect defaultCI
          match offset cell.b_field (-1) size with
          | .error e => .error e
          | .ok v => .ok (core.set indirect { cell with b_field := v })
      | _ => .ok core
    match predecRes with
    | .error e => .error e
    | .ok core1 =>
      let targetRes : EmuResult Nat :=
        match mode with
        | .Immediate => .ok pc
        | .Direct => opAdd fieldVal pc size
        | .IndirectA | .PredecA | .PostincA =>
            opAdd indirect (core1.getD indirect defaultCI).a_field size
        | .IndirectB | .PredecB | .PostincB =>
            opAdd indirect (core1.getD indirect defaultCI).b_field size
      match targetRes with
      | .error e => .error e
      | .ok target =>
        let snapshot := core1.getD target defaultCI
        let postincRes : EmuResult (List CompleteInstruction) :=
          match mode with
          | .PostincA =>
              let cell := core1.getD indirect defaultCI
              match offset cell.a_field 1 size with
              | .error e => .error e
              | .ok v => .ok (core1.set indirect { cell with a_field := v })
          | .PostincB =>
              let cell := core1.getD indirect defaultCI
              match offset cell.b_field 1 size with
              | .error e => .error e
              | .ok v => .ok (core1.set indirect { cell with b_field := v })
          | _ => .ok core1
        match postincRes with
        | .error e => .error e
        | .ok core2 => .ok (target, snapshot, core2)

/-- evaluate (operands.rs): read the current instruction, run the A operand
phase then the B operand phase on the live core, validate every cached value
against core size, and return the snapshot with the mutated core. -/
def evaluate (pc : Nat) (core : List CompleteInstruction) :
    EmuResult (RegisterValues × List CompleteInstruction) :=
  let size := core.length
  match core.get? pc with
  | none => .error .internalError
  | some cur =>
    match evalOperand pc cur.a_field cur.instr.a_addr_mode core with
    | .error e => .error e
    | .ok (a_target, a_instr, coreA) =>
      match evalOperand pc cur.b_field cur.instr.b_addr_mode coreA with
      | .error e => .error e
      | .ok (b_target, b_instr, coreB) =>
        match validate pc size, validate cur.a_field size,
              validate cur.b_field size with
        | .ok ci, .ok ca, .ok cb =>
          match validate a_target size, validate a_instr.a_field size,
                validate a_instr.b_field size with
          | .ok ai, .ok aa, .ok ab =>
            match validate b_target size, validate b_instr.a_field size,
                  validate b_instr.b_field size with
            | .ok bi, .ok ba, .ok bb =>
                .ok (⟨⟨ci, cur.instr, ca, cb⟩,
                      ⟨ai, a_instr.instr, aa, ab⟩,
                      ⟨bi, b_instr.instr, ba, bb⟩⟩, coreB)
            | _, _, _ => .error .internalError
          | _, _, _ => .error .internalError
        | _, _, _ => .error .internalError

/-! ## Opcode handlers (emulation_operations.rs)

OpInputs carries warrior_id, the register snapshot, core_size, and mutable
references to the queues, core, and pspace; here the mutable parts are an
OpState threaded through each handler. -/

/-- The mutable state accessible to a handler through OpInputs. -/
structure OpState where
  pq : ProcessQueueSet
  core : List CompleteInstruction
  pspace : PSpace
deriving DecidableEq

/-- core_get_mut followed by a write of the a_field. -/
def coreSetA (core : List CompleteInstruction) (idx v : Nat) :
    EmuResult (List CompleteInstruction) :=
  if idx < core.length then
    .ok (core.set idx { core.getD idx defaultCI with a_field := v })
  else .error .internalError

/-- core_get_mut followed by a write of the b_field. -/
def coreSetB (core : List CompleteInstruction) (idx v : Nat) :
    EmuResult (List CompleteInstruction) :=
  if idx < core.length then
    .ok (core.set idx { core.getD idx defaultCI with b_field := v })
  else .error .internalError

/-- core_get_mut followed by a write of both fields. -/
def coreSetAB (core : List CompleteInstruction) (idx va vb : Nat) :
    EmuResult (List CompleteInstruction) :=
  if idx < core.length then
    .ok (core.set idx { core.getD idx defaultCI with
                          a_field := va, b_field := vb })
  else .error .internalError

/-- core_get_mut followed by a write of the whole cell. -/
def coreSetWhole (core : List CompleteInstruction) (idx : Nat)
    (cell : CompleteInstruction) : EmuResult (List CompleteInstruction) :=
  if idx < core.length then .ok (core.set idx cell)
  else .error .internalError

/-- dat_op: no write, no enqueue. -/
def dat_op (_warrior_id : Nat) (_regs : RegisterValues) (_core_size : Nat)
    (s : OpState) : EmuResult OpState := .ok s

/-- mov_op: enqueue next PC, then write per modifier.  The F and X arms
faithfully reproduce the source, which writes the B snapshot's own field back
for the second half. -/
def mov_op (warrior_id : Nat) (regs : RegisterValues) (core_size : Nat)
    (s : OpState) : EmuResult OpState :=
  match offset regs.current.idx 1 core_size with
  | .error e => .error e
  | .ok next_pc =>
    match s.pq.push_back next_pc warrior_id with
    | .error e => .error e
    | .ok pq =>
      let a := regs.a
      let b := regs.b
      let coreRes : EmuResult (List CompleteInstruction) :=
        match regs.current.instr.modifier with
        | .A => coreSetA s.core b.idx a.a_field
        | .B => coreSetB s.core b.idx a.b_field
        | .AB => coreSetB s.core b.idx a.a_field
        | .BA => coreSetA s.core b.idx a.b_field
        | .F => coreSetAB s.core b.idx a.a_field b.b_field
        | .X => coreSetAB s.core b.idx a.b_field b.a_field
        | .I => coreSetWhole s.core b.idx ⟨a.instr, a.a_field, a.b_field⟩
      match coreRes with
      | .error e => .error e
      | .ok core => .ok { s with pq := pq, core := core }

/-- perform_arithmetic (emulation_operations.rs): dispatch on the current
opcode; Div and Mod return none exactly when the right operand is zero. -/
def perform_arithmetic (lhs rhs : Nat) (opcode : Opcode) (core_size : Nat) :
    Option (EmuResult Nat) :=
  match opcode with
  | .Add => some (offset lhs (rhs : Int) core_size)
  | .Sub => some (offset lhs (-(rhs : Int)) core_size)
  | .Mul =>
      if core_size = 0 then some (.error .internalError)
      else some (.ok (lhs * rhs % core_size))
  | .Div => if rhs = 0 then none else some (.ok (lhs / rhs))
  | .Mod => if rhs = 0 then none else some (.ok (lhs % rhs))
  | _ => some (.error .internalError)

/-- arithmetic_op (emulation_operations.rs): Add/Sub/Mul/Div/Mod.  Per-field
divide-by-zero suppresses that field's write and the next-PC enqueue. -/
def arithmetic_op (warrior_id : Nat) (regs : RegisterValues) (core_size : Nat)
    (s : OpState) : EmuResult OpState :=
  let a := regs.a
  let b := regs.b
  let opcode := regs.current.instr.opcode
  match offset regs.current.idx 1 core_size with
  | .error e => .error e
  | .ok next_pc =>
    if core_size = 0 then .error .internalError
    else
      -- single-field case shared by the A, B, AB, BA arms
      let oneField := fun (lhs rhs : Nat)
          (write : List CompleteInstruction → Nat →
            EmuResult (List CompleteInstruction)) =>
        match perform_arithmetic lhs rhs opcode core_size with
        | none => .ok s
        | some res =>
          match s.pq.push_back next_pc warrior_id with
          | .error e => .error e
          | .ok pq =>
            match res with
            | .error e => .error e
            | .ok v =>
              match write s.core v with
              | .error e => .error e
              | .ok core => .ok { s with pq := pq, core := core }
      -- two-field case shared by the F/I and X arms; write1 and write2 are
      -- the destinations of the first and second results respectively
      let twoField := fun (lhs1 rhs1 lhs2 rhs2 : Nat)
          (write1 write2 : List CompleteInstruction → Nat →
            EmuResult (List CompleteInstruction))
          (writeBoth : List CompleteInstruction → Nat → Nat →
            EmuResult (List CompleteInstruction)) =>
        match perform_arithmetic lhs1 rhs1 opcode core_size,
              perform_arithmetic lhs2 rhs2 opcode core_size with
        | some first, some second =>
          match s.pq.push_back next_pc warrior_id with
          | .error e => .error e
          | .ok pq =>
            match first, second with
            | .ok v1, .ok v2 =>
              match writeBoth s.core v1 v2 with
              | .error e => .error e
              | .ok core => .ok { s with pq := pq, core := core }
            | .error e, _ => .error e
            | _, .error e => .error e
        | some first, none =>
          match first with
          | .error e => .error e
          | .ok v1 =>
            match write1 s.core v1 with
            | .error e => .error e
            | .ok core => .ok { s with core := core }
        | none, some second =>
          match second with
          | .error e => .error e
          | .ok v2 =>
            match write2 s.core v2 with
            | .error e => .error e
            | .ok core => .ok { s with core := core }
        | none, none => .ok s
      match regs.current.instr.modifier with
      | .A => oneField b.a_field a.a_field (fun c v => coreSetA c b.idx v)
      | .B => oneField b.b_field a.b_field (fun c v => coreSetB c b.idx v)
      | .AB => oneField b.b_field a.a_field (fun c v => coreSetB c b.idx v)
      | .BA => oneField b.a_field a.b_field (fun c v => coreSetA c b.idx v)
      | .F | .I =>
          twoField b.a_field a.a_field b.b_field a.b_field
            (fun c v => coreSetA c b.idx v) (fun c v => coreSetB c b.idx v)
            (fun c v1 v2 => coreSetAB c b.idx v1 v2)
      | .X =>
          twoField b.b_field a.a_field b.a_field a.b_field
            (fun c v => coreSetB c b.idx v) (fun c v => coreSetA c b.idx v)
            (fun c v1 v2 => coreSetAB c b.idx v2 v1)

/-- jmp_op: unconditionally enqueue the A pointer. -/
def jmp_op (warrior_id : Nat) (regs : RegisterValues) (_core_size : Nat)
    (s : OpState) : EmuResult OpState :=
  match s.pq.push_back regs.a.idx warrior_id with
  | .error e => .error e
  | .ok pq => .ok { s with pq := pq }

/-- jmz_op: jump when the B-value is zero (AND over fields for F/X/I). -/
def jmz_op (warrior_id : Nat) (regs : RegisterValues) (core_size : Nat)
    (s : OpState) : EmuResult OpState :=
  let b := regs.b
  let is_zero : Bool :=
    match regs.current.instr.modifier with
    | .A | .BA => b.a_field == 0
    | .B | .AB => b.b_field == 0
    | .F | .X | .I => b.a_field == 0 && b.b_field == 0
  if is_zero then
    match s.pq.push_back regs.a.idx warrior_id with
    | .error e => .error e
    | .ok pq => .ok { s with pq := pq }
  else
    match offset regs.current.idx 1 core_size with
    | .error e => .error e
    | .ok next_pc =>
      match s.pq.push_back next_pc warrior_id with
      | .error e => .error e
      | .ok pq => .ok { s with pq := pq }

/-- jmn_op: jump when the B-value is non-zero (OR over fields for F/X/I). -/
def jmn_op (warrior_id : Nat) (regs : RegisterValues) (core_size : Nat)
    (s : OpState) : EmuResult OpState :=
  let b := regs.b
  let is_non_zero : Bool :=
    match regs.current.instr.modifier with
    | .A | .BA => b.a_field != 0
    | .B | .AB => b.b_field != 0
    | .F | .X | .I => b.a_field != 0 || b.b_field != 0
  if is_non_zero then
    match s.pq.push_back regs.a.idx warrior_id with
    | .error e => .error e
    | .ok pq => .ok { s with pq := pq }
  else
    match offset regs.current.idx 1 core_size with
    | .error e => .error e
    | .ok next_pc =>
      match s.pq.push_back next_pc warrior_id with
      | .error e => .error e
      | .ok pq => .ok { s with pq := pq }

/-- djn_op: decrement B-target field(s), test the decremented snapshot
B-value (OR over fields for F/X/I), jump or fall through. -/
def djn_op (warrior_id : Nat) (regs : RegisterValues) (core_size : Nat)
    (s : OpState) : EmuResult OpState :=
  let a := regs.a
  let b := regs.b
  match offset regs.current.idx 1 core_size with
  | .error e => .error e
  | .ok next_pc =>
    if b.idx < s.core.length then
      let b_target := s.core.getD b.idx defaultCI
      let pushCond := fun (core : List CompleteInstruction)
          (non_zero : Bool) =>
        match s.pq.push_back (if non_zero then a.idx else next_pc)
            warrior_id with
        | .error e => .error e
        | .ok pq => .ok { s with pq := pq, core := core }
      match regs.current.instr.modifier with
      | .A | .BA =>
        match offset b_target.a_field (-1) core_size with
        | .error e => .error e
        | .ok dv =>
          let core := s.core.set b.idx { b_target with a_field := dv }
          match offset b.a_field (-1) core_size with
          | .error e => .error e
          | .ok sv => pushCond core (sv != 0)
      | .B | .AB =>
        match offset b_target.b_field (-1) core_size with
        | .error e => .error e
        | .ok dv =>
          let core := s.core.set b.idx { b_target with b_field := dv }
          match offset b.b_field (-1) core_size with
          | .error e => .error e
          | .ok sv => pushCond core (sv != 0)
      | .F | .X | .I =>
        match offset b_target.a_field (-1) core_size,
              offset b_target.b_field (-1) core_size with
        | .ok dva, .ok dvb =>
          let core := s.core.set b.idx
            { b_target with a_field := dva, b_field := dvb }
          match offset b.a_field (-1) core_size,
                offset b.b_field (-1) core_size with
          | .ok sva, .ok svb => pushCond core (sva != 0 || svb != 0)
          | .error e, _ => .error e
          | _, .error e => .error e
        | .error e, _ => .error e
        | _, .error e => .error e
    else .error .internalError

/-- spl_op: enqueue the next PC, then enqueue the A pointer; each push is
subject to the queue cap. -/
def spl_op (warrior_id : Nat) (regs : RegisterValues) (core_size : Nat)
    (s : OpState) : EmuResult OpState :=
  match offset regs.current.idx 1 core_size with
  | .error e => .error e
  | .ok next_pc =>
    match s.pq.push_back next_pc warrior_id with
    | .error e => .error e
    | .ok pq =>
      match pq.push_back regs.a.idx warrior_id with
      | .error e => .error e
      | .ok pq2 => .ok { s with pq := pq2 }

/-- slt_op: skip when the A-value is strictly below the B-value (per-field
AND for F/I, crossed for X). -/
def slt_op (warrior_id : Nat) (regs : RegisterValues) (core_size : Nat)
    (s : OpState) : EmuResult OpState :=
  let a := regs.a
  let b := regs.b
  let is_less_than : Bool :=
    match regs.current.instr.modifier with
    | .A => decide (a.a_field < b.a_field)
    | .B => decide (a.b_field < b.b_field)
    | .AB => decide (a.a_field < b.b_field)
    | .BA => decide (a.b_field < b.a_field)
    | .F | .I => decide (a.a_field < b.a_field) && decide (a.b_field < b.b_field)
    | .X => decide (a.a_field < b.b_field) && decide (a.b_field < b.a_field)
  let amt : Int := if is_less_than then 2 else 1
  match offset regs.current.idx amt core_size with
  | .error e => .error e
  | .ok pc =>
    match s.pq.push_back pc warrior_id with
    | .error e => .error e
    | .ok pq => .ok { s with pq := pq }

/-- cmp_op (Cmp and Seq): skip when the A-value equals the B-value; for I,
full instruction equality. -/
def cmp_op (warrior_id : Nat) (regs : RegisterValues) (core_size : Nat)
    (s : OpState) : EmuResult OpState :=
  let a := regs.a
  let b := regs.b
  let is_equal : Bool :=
    match regs.current.instr.modifier with
    | .A => a.a_field == b.a_field
    | .B => a.b_field == b.b_field
    | .AB => a.a_field == b.b_field
    | .BA => a.b_field == b.a_field
    | .F => a.a_field == b.a_field && a.b_field == b.b_field
    | .X => a.a_field == b.b_field && a.b_field == b.a_field
    | .I => decide (a.instr = b.instr) && a.a_field == b.a_field && a.b_field == b.b_field
  let amt : Int := if is_equal then 2 else 1
  match offset regs.current.idx amt core_size with
  | .error e => .error e
  | .ok pc =>
    match s.pq.push_back pc warrior_id with
    | .error e => .error e
    | .ok pq => .ok { s with pq := pq }

/-- sne_op: skip when the A-value differs from the B-value (OR over parts). -/
def sne_op (warrior_id : Nat) (regs : RegisterValues) (core_size : Nat)
    (s : OpState) : EmuResult OpState :=
  let a := regs.a
  let b := regs.b
  let is_not_equal : Bool :=
    match regs.current.instr.modifier with
    | .A => a.a_field != b.a_field
    | .B => a.b_field != b.b_field
    | .AB => a.a_field != b.b_field
    | .BA => a.b_field != b.a_field
    | .F => a.a_field != b.a_field || a.b_field != b.b_field
    | .X => a.a_field != b.b_field || a.b_field != b.a_field
    | .I => decide (a.instr ≠ b.instr) || a.a_field != b.a_field || a.b_field != b.b_field
  let amt : Int := if is_not_equal then 2 else 1
  match offset regs.current.idx amt core_size with
  | .error e => .error e
  | .ok pc =>
    match s.pq.push_back pc warrior_id with
    | .error e => .error e
    | .ok pq => .ok { s with pq := pq }

/-- nop_op: enqueue the next PC only. -/
def nop_op (warrior_id : Nat) (regs : RegisterValues) (core_size : Nat)
    (s : OpState) : EmuResult OpState :=
  match offset regs.current.idx 1 core_size with
  | .error e => .error e
  | .ok next_pc =>
    match s.pq.push_back next_pc warrior_id with
    | .error e => .error e
    | .ok pq => .ok { s with pq := pq }

/-- ldp_op: enqueue next PC; read PSPACE at the source index selected from
the A snapshot (a_field for A/AB, b_field otherwise, no modulo applied);
write the value into the B target (a_field for A/BA, b_field otherwise). -/
def ldp_op (warrior_id : Nat) (regs : RegisterValues) (core_size : Nat)
    (s : OpState) : EmuResult OpState :=
  match offset regs.current.idx 1 core_size with
  | .error e => .error e
  | .ok next_pc =>
    match s.pq.push_back next_pc warrior_id with
    | .error e => .error e
    | .ok pq =>
      let a := regs.a
      let b := regs.b
      let source_index :=
        match regs.current.instr.modifier with
        | .A | .AB => a.a_field
        | .B | .BA | .F | .X | .I => a.b_field
      match s.pspace.read source_index warrior_id with
      | .error e => .error e
      | .ok value =>
        let coreRes :=
          match regs.current.instr.modifier with
          | .A | .BA => coreSetA s.core b.idx value
          | .B | .AB | .F | .X | .I => coreSetB s.core b.idx value
        match coreRes with
        | .error e => .error e
        | .ok core => .ok { s with pq := pq, core := core }

/-- stp_op: write the selected A-snapshot field into PSPACE at the index
selected from the B snapshot; then enqueue next PC. -/
def stp_op (warrior_id : Nat) (regs : RegisterValues) (core_size : Nat)
    (s : OpState) : EmuResult OpState :=
  let a := regs.a
  let b := regs.b
  let source_value :=
    match regs.current.instr.modifier with
    | .A | .AB => a.a_field
    | .B | .BA | .F | .X | .I => a.b_field
  let pspace_dest_index :=
    match regs.current.instr.modifier with
    | .A | .BA => b.a_field
    | .B | .AB | .F | .X | .I => b.b_field
  match s.pspace.write pspace_dest_index source_value warrior_id with
  | .error e => .error e
  | .ok pspace =>
    match offset regs.current.idx 1 core_size with
    | .error e => .error e
    | .ok next_pc =>
      match s.pq.push_back next_pc warrior_id with
      | .error e => .error e
      | .ok pq => .ok { s with pq := pq, pspace := pspace }

/-! ## Emulator dispatch (dispatch.rs) -/

/-- CoreSettings (emulator_core.rs); the optional bytecode_format string is
not modelled (no claim mentions it). -/
structure CoreSettings where
  core_size : Nat
  pspace_size : Nat
  warriors : Nat
  processes : Nat
deriving DecidableEq

/-- Emulator (dispatch.rs): EmulatorState fields inlined beside config. -/
structure Emulator where
  pq : ProcessQueueSet
  core : List CompleteInstruction
  pspace : PSpace
  config : CoreSettings
deriving DecidableEq

/-- u32::MAX, the largest CoreAddr. -/
def u32Max : Nat := 4294967295

namespace Emulator

/-- Emulator::new (dispatch.rs): reject core_size above u32::MAX and
pspace_size above core_size; otherwise build the initial state. -/
def new (core_size pspace_size warriors processes : Nat) :
    EmuResult Emulator :=
  if u32Max < core_size then .error .invalidParam
  else if core_size < pspace_size then .error .invalidParam
  else
    .ok { pq := ProcessQueueSet.new warriors processes,
          core := List.replicate core_size defaultCI,
          pspace := PSpace.new pspace_size,
          config := ⟨core_size, pspace_size, warriors, processes⟩ }

/-- validate_addr_param (dispatch.rs). -/
def validate_addr_param (e : Emulator) (val : Nat) : EmuResult Nat :=
  if val < e.config.core_size then .ok val else .error .invalidParam

/-- validate_warrior_param (dispatch.rs). -/
def validate_warrior_param (e : Emulator) (warrior_id : Nat) :
    EmuResult Nat :=
  if warrior_id < e.config.warriors then .ok warrior_id
  else .error .invalidParam

/-- Worker for uniqueFirst: drop elements already seen. -/
def uniqueFirstGo (seen : List Nat) : List Nat → List Nat
  | [] => []
  | x :: xs =>
      if x ∈ seen then uniqueFirstGo seen xs
      else x :: uniqueFirstGo (x :: seen) xs

/-- Remove duplicates keeping first occurrences (itertools unique()). -/
def uniqueFirst (l : List Nat) : List Nat := uniqueFirstGo [] l

/-- Fold add_pspace over a pin list. -/
def addAllPins (ps : PSpace) : List Nat → EmuResult PSpace
  | [] => .ok ps
  | pin :: rest =>
      match ps.add_pspace pin with
      | .error e => .error e
      | .ok ps2 => addAllPins ps2 rest

/-- Fold assign_pspace over the (pin, warrior) pairs. -/
def assignAll (ps : PSpace) : List (Nat × Nat) → EmuResult PSpace
  | [] => .ok ps
  | (pin, warrior_id) :: rest =>
      match ps.assign_pspace warrior_id pin with
      | .error e => .error e
      | .ok ps2 => assignAll ps2 rest

/-- Check every warrior id in the pspace map (dispatch.rs loop over the
unzipped warrior list). -/
def validateWarriors (e : Emulator) : List (Nat × Nat) → EmuResult Unit
  | [] => .ok ()
  | (_, w) :: rest =>
      match e.validate_warrior_param w with
      | .error err => .error err
      | .ok _ => validateWarriors e rest

/-- initialize_pspace (dispatch.rs): validate all warrior ids, replace the
pspace with a fresh one, allocate one array per distinct pin, then perform
every warrior-to-pin assignment in order. -/
def initPspace (e : Emulator) (pspace_map : List (Nat × Nat)) :
    EmuResult Emulator :=
  match validateWarriors e pspace_map with
  | .error err => .error err
  | .ok _ =>
    let fresh := PSpace.new e.config.pspace_size
    match addAllPins fresh (uniqueFirst (pspace_map.map Prod.fst)) with
    | .error err => .error err
    | .ok ps1 =>
      match assignAll ps1 pspace_map with
      | .error err => .error err
      | .ok ps2 => .ok { e with pspace := ps2 }

/-- step_emulator (dispatch.rs): evaluate operands then dispatch to the
handler selected by the current opcode. -/
def step_emulator (e : Emulator) (pc warrior_id : Nat) :
    EmuResult Emulator :=
  match evaluate pc e.core with
  | .error err => .error err
  | .ok (regs, core) =>
    if u32Max < e.config.core_size then .error .internalError
    else
      let core_size := e.config.core_size
      let s : OpState := ⟨e.pq, core, e.pspace⟩
      let handler :=
        match regs.current.instr.opcode with
        | .Dat => dat_op
        | .Mov => mov_op
        | .Add | .Sub | .Mul | .Div | .Mod => arithmetic_op
        | .Jmp => jmp_op
        | .Jmz => jmz_op
        | .Jmn => jmn_op
        | .Djn => djn_op
        | .Spl => spl_op
        | .Slt => slt_op
        | .Cmp | .Seq => cmp_op
        | .Sne => sne_op
        | .Nop => nop_op
        | .Ldp => ldp_op
        | .Stp => stp_op
      match handler warrior_id regs core_size s with
      | .error err => .error err
      | .ok s2 =>
          .ok { e with pq := s2.pq, core := s2.core, pspace := s2.pspace }

/-- step (dispatch.rs): validate the warrior, pop its next PC, execute. -/
def step (e : Emulator) (warrior_id : Nat) :
    EmuResult (Option Nat × Emulator) :=
  match e.validate_warrior_param warrior_id with
  | .error err => .error err
  | .ok _ =>
    match e.pq.pop warrior_id with
    | .error err => .error err
    | .ok (none, pq) => .ok (none, { e with pq := pq })
    | .ok (some pc, pq) =>
      match step_emulator { e with pq := pq } pc warrior_id with
      | .error err => .error err
      | .ok e2 => .ok (some pc, e2)

/-- active_warrior_set (dispatch.rs). -/
def active_warrior_set (e : Emulator) : List Nat :=
  e.pq.active_warriors

/-- The inner for-loop of run: step every warrior in the snapshot. -/
def stepList (e : Emulator) : List Nat → EmuResult Emulator
  | [] => .ok e
  | w :: ws =>
      match e.step w with
      | .error err => .error err
      | .ok (_, e2) => stepList e2 ws

/-- run (dispatch.rs): while cycles remain and more than warriors_remaining
warriors are active, run one cycle over the snapshot of active warriors.
Returns the number of cycles executed. -/
def run (e : Emulator) (cycles warriors_remaining : Nat) :
    EmuResult (Nat × Emulator) :=
  match cycles with
  | 0 => .ok (0, e)
  | c + 1 =>
    if warriors_remaining < e.active_warrior_set.length then
      match stepList e e.active_warrior_set with
      | .error err => .error err
      | .ok e2 =>
        match e2.run c warriors_remaining with
        | .error err => .error err
        | .ok (k, e3) => .ok (k + 1, e3)
    else .ok (0, e)

/-- read_core (dispatch.rs). -/
def read_core (e : Emulator) (addr : Nat) :
    EmuResult (Nat × Nat × Nat) :=
  match e.validate_addr_param addr with
  | .error err => .error err
  | .ok _ =>
    match e.core.get? addr with
    | none => .error .internalError
    | some cell => .ok (encode cell.instr, cell.a_field, cell.b_field)

/-- write_core (dispatch.rs).  The source validates `addr` three times (the
second and third calls, whose messages mention a_field and b_field, still
pass `addr`), decodes the instruction, and overwrites the cell. -/
def write_core (e : Emulator) (addr insn a_field b_field : Nat) :
    EmuResult Emulator :=
  match e.validate_addr_param addr with
  | .error err => .error err
  | .ok _ =>
    match e.validate_addr_param addr with
    | .error err => .error err
    | .ok _ =>
      match e.validate_addr_param addr with
      | .error err => .error err
      | .ok _ =>
        match decode insn with
        | none => .error .invalidParam
        | some instr =>
          if addr < e.core.length then
            .ok { e with core := e.core.set addr ⟨instr, a_field, b_field⟩ }
          else .error .internalError

/-- reset_core (dispatch.rs): decode the fill instruction, clear all queues,
refill the core, and replace the pspace with a fresh one. -/
def reset_core (e : Emulator) (initial_instr initial_a initial_b : Nat) :
    EmuResult Emulator :=
  match decode initial_instr with
  | none => .error .invalidParam
  | some instr =>
      .ok { e with
              pq := e.pq.reset_queues,
              core := List.replicate e.config.core_size
                        ⟨instr, initial_a, initial_b⟩,
              pspace := PSpace.new e.config.pspace_size }

/-- replace_process_queue (dispatch.rs): validate every entry against
core_size, then replace the queue. -/
def replace_process_queue (e : Emulator) (warrior_id : Nat)
    (process_queue : List Nat) : EmuResult Emulator :=
  if process_queue.all (fun v => v < e.config.core_size) then
    match e.pq.replace_queue warrior_id process_queue with
    | .error err => .error err
    | .ok pq => .ok { e with pq := pq }
  else .error .invalidParam

end Emulator

/-! ## Loadfile parser (loadfile_parser.rs)

The claims about the parser concern the accumulation loop in parse(), which
consumes the stream of LineContent values produced by parse_line.  The loop
is embedded over that stream; the character-level line parsing is outside the
claims.  In the source the loop can only exit through an End line (parse_line
yields End(None) at end of input), so the empty-stream arm below mirrors the
End(None) arm. -/

/-- A loadfile instruction before normalization: fields are signed i64. -/
structure RelaxedCompleteInstruction where
  instr : Instruction
  a_field : Int
  b_field : Int
deriving DecidableEq

/-- RelaxedWarrior (relaxed_redcode.rs): parse() output. -/
structure RelaxedWarrior where
  code : List RelaxedCompleteInstruction
  start : Int
  pin : Option Int
deriving DecidableEq

/-- LineContent (loadfile_parser.rs).  Comment text is irrelevant to the
loop and is dropped. -/
inductive LineContent where
  | comment
  | instruction : RelaxedCompleteInstruction → LineContent
  | emptyLine
  | orgStmt : Int → LineContent
  | endStmt : Option Int → LineContent
  | pinStmt : Int → LineContent
deriving DecidableEq

/-- The accumulation loop of parse (loadfile_parser.rs lines 129-147):
instructions append, ORG and PIN overwrite, END breaks (setting start when it
carries a value). -/
def parseLoop : List LineContent → List RelaxedCompleteInstruction →
    Option Int → Option Int → RelaxedWarrior
  | [], instructions, start, pin => ⟨instructions, start.getD 0, pin⟩
  | l :: rest, instructions, start, pin =>
    match l with
    | .emptyLine | .comment => parseLoop rest instructions start pin
    | .pinStmt v => parseLoop rest instructions start (some v)
    | .instruction i => parseLoop rest (instructions ++ [i]) start pin
    | .orgStmt v => parseLoop rest instructions (some v) pin
    | .endStmt (some v) => ⟨instructions, v, pin⟩
    | .endStmt none => ⟨instructions, start.getD 0, pin⟩

/-- parse (loadfile_parser.rs) at the LineContent level.  The
must_consume_all and disallow_empty_warrior options only decide acceptance
after the loop and never change the produced start value. -/
def parseLines (lines : List LineContent) : RelaxedWarrior :=
  parseLoop lines [] none none

/-! ## Helper definitions used to state the claims -/

/-- The pure effect of a successful push_back: append below the cap, discard
at the cap. -/
def pushBackP (pq : ProcessQueueSet) (value warrior_id : Nat) :
    ProcessQueueSet :=
  match pq.queues.get? warrior_id with
  | none => pq
  | some q =>
      if q.length < pq.maxProcesses then
        { pq with queues := pq.queues.set warrior_id (q ++ [value]) }
      else pq

/-- A core is well formed when every stored field value is below core size
(the universal invariant the emulator maintains). -/
def WellFormedCore (core : List CompleteInstruction) : Prop :=
  ∀ c ∈ core, c.a_field < core.length ∧ c.b_field < core.length

instance (core : List CompleteInstruction) :
    Decidable (WellFormedCore core) :=
  List.decidableBAll _ core

/-- The quotient or remainder written by Div or Mod. -/
def divModApp (opcode : Opcode) (x y : Nat) : Nat :=
  match opcode with
  | .Div => x / y
  | .Mod => x % y
  | _ => 0

/-- Whether a parsed line is an END statement. -/
def isEnd : LineContent → Bool
  | .endStmt _ => true
  | _ => false

/-- The value of the last ORG statement in a line list, if any. -/
def lastOrg : List LineContent → Option Int
  | [] => none
  | LineContent.orgStmt v :: rest => some ((lastOrg rest).getD v)
  | _ :: rest => lastOrg rest

/-- The pin of the last pair mentioning a warrior in a pspace map. -/
def lastPinFor : List (Nat × Nat) → Nat → Option Nat
  | [], _ => none
  | (pin, w) :: rest, x =>
      if w = x then some ((lastPinFor rest x).getD pin)
      else lastPinFor rest x

/-! ## General lemmas -/

theorem offset_nat_ok (x k size : Nat) (hsz : 0 < size) :
    offset x (k : Int) size = .ok ((x + k) % size) := by
  unfold offset
  rw [if_neg (Nat.pos_iff_ne_zero.mp hsz)]
  congr 1
  have h1 : ((k : Int) + (x : Int)) = ((k + x : Nat) : Int) := by push_cast; ring
  rw [h1, ← Int.natCast_mod, Int.toNat_natCast, Nat.add_comm]

theorem offset_one_ok (x size : Nat) (hsz : 0 < size) :
    offset x 1 size = .ok ((x + 1) % size) := by
  have := offset_nat_ok x 1 size hsz
  simpa using this

theorem offset_neg_one_ok (x size : Nat) (hsz : 0 < size) :
    offset x (-1) size = Except.ok ((x + (size - 1)) % size) := by
  unfold offset
  rw [if_neg hsz.ne']
  congr 1
  have h1 : ((-1 : Int) + x) % (size : Int) =
      ((-1 : Int) + x + size) % (size : Int) := by
    rw [show ((-1 : Int) + x + size) = (-1 + x + size * 1) by ring,
        Int.add_mul_emod_self_left]
  have h2 : ((-1 : Int) + x + size) = ((x + (size - 1) : Nat) : Int) := by
    omega
  rw [h1, h2, ← Int.natCast_mod, Int.toNat_natCast]

theorem push_back_eq (pq : ProcessQueueSet) (v w : Nat)
    (hw : w < pq.queues.length) :
    pq.push_back v w = .ok (pushBackP pq v w) := by
  unfold ProcessQueueSet.push_back pushBackP
  cases hq : pq.queues.get? w with
  | none =>
      rw [List.get?_eq_none] at hq
      omega
  | some q =>
      by_cases hlen : q.length < pq.maxProcesses <;> simp [hlen]

theorem mem_set_cases {α : Type} {x y : α} {l : List α} {i : Nat}
    (h : x ∈ l.set i y) : x = y ∨ x ∈ l := by
  induction l generalizing i with
  | nil => simp at h
  | cons a t ih =>
      cases i with
      | zero =>
          simp only [List.set] at h
          rcases List.mem_cons.mp h with h1 | h1
          · exact Or.inl h1
          · exact Or.inr (List.mem_cons_of_mem _ h1)
      | succ n =>
          simp only [List.set] at h
          rcases List.mem_cons.mp h with h1 | h1
          · exact Or.inr (h1 ▸ List.mem_cons_self _ _)
          · rcases ih h1 with h2 | h2
            · exact Or.inl h2
            · exact Or.inr (List.mem_cons_of_mem _ h2)

theorem getD_set_self {α : Type} (l : List α) (i : Nat) (x d : α)
    (h : i < l.length) : (l.set i x).getD i d = x := by
  induction l generalizing i with
  | nil => simp at h
  | cons a t ih =>
      cases i with
      | zero => rfl
      | succ n =>
          simp only [List.set, List.getD, List.get?]
          exact ih n (by simpa using h)

theorem getD_set_ne {α : Type} (l : List α) (i j : Nat) (x d : α)
    (h : j ≠ i) : (l.set i x).getD j d = l.getD j d := by
  induction l generalizing i j with
  | nil => simp [List.set]
  | cons a t ih =>
      cases i with
      | zero =>
          cases j with
          | zero => exact absurd rfl h
          | succ m => rfl
      | succ n =>
          cases j with
          | zero => rfl
          | succ m =>
              simp only [List.set, List.getD, List.get?]
              exact ih n m (fun hc => h (by omega))

theorem getD_mem {α : Type} (l : List α) (i : Nat) (d : α)
    (h : i < l.length) : l.getD i d ∈ l := by
  induction l generalizing i with
  | nil => simp at h
  | cons a t ih =>
      cases i with
      | zero => exact List.mem_cons_self _ _
      | succ n => exact List.mem_cons_of_mem _ (ih n (by simpa using h))

/-! ## Bytecode lemmas (for C8) -/

theorem opcodeToU8_lt (o : Opcode) : o.toU8 < 256 := by cases o <;> decide

theorem modifierToU8_lt (m : Modifier) : m.toU8 < 256 := by
  cases m <;> decide

theorem addrModeToU8_lt (a : AddrMode) : a.toU8 < 256 := by
  cases a <;> decide

theorem opcodeFromU8_toU8 (o : Opcode) : Opcode.fromU8 o.toU8 = some o := by
  cases o <;> rfl

theorem modifierFromU8_toU8 (m : Modifier) :
    Modifier.fromU8 m.toU8 = some m := by
  cases m <;> rfl

theorem addrModeFromU8_toU8 (a : AddrMode) :
    AddrMode.fromU8 a.toU8 = some a := by
  cases a <;> rfl

theorem encode_byte0 (i : Instruction) :
    encode i / 16777216 % 256 = i.opcode.toU8 := by
  have h1 := opcodeToU8_lt i.opcode
  have h2 := modifierToU8_lt i.modifier
  have h3 := addrModeToU8_lt i.a_addr_mode
  have h4 := addrModeToU8_lt i.b_addr_mode
  unfold encode
  omega

theorem encode_byte1 (i : Instruction) :
    encode i / 65536 % 256 = i.modifier.toU8 := by
  have h1 := opcodeToU8_lt i.opcode
  have h2 := modifierToU8_lt i.modifier
  have h3 := addrModeToU8_lt i.a_addr_mode
  have h4 := addrModeToU8_lt i.b_addr_mode
  unfold encode
  omega

theorem encode_byte2 (i : Instruction) :
    encode i / 256 % 256 = i.a_addr_mode.toU8 := by
  have h1 := opcodeToU8_lt i.opcode
  have h2 := modifierToU8_lt i.modifier
  have h3 := addrModeToU8_lt i.a_addr_mode
  have h4 := addrModeToU8_lt i.b_addr_mode
  unfold encode
  omega

theorem encode_byte3 (i : Instruction) :
    encode i % 256 = i.b_addr_mode.toU8 := by
  have h1 := opcodeToU8_lt i.opcode
  have h2 := modifierToU8_lt i.modifier
  have h3 := addrModeToU8_lt i.a_addr_mode
  have h4 := addrModeToU8_lt i.b_addr_mode
  unfold encode
  omega

/-- C8: for every valid Instruction (19 opcodes, 7 modifiers, 8 addressing
modes per operand), decode(encode(i)) = i, and encode is injective: distinct
instructions have distinct 32-bit identifiers. -/
theorem c8_bytecode_roundtrip_injective :
    (∀ i : Instruction, decode (encode i) = some i) ∧
    (∀ i j : Instruction, i ≠ j → encode i ≠ encode j) := by
  have hrt : ∀ i : Instruction, decode (encode i) = some i := by
    intro i
    unfold decode
    rw [encode_byte0, encode_byte1, encode_byte2, encode_byte3,
        opcodeFromU8_toU8, modifierFromU8_toU8, addrModeFromU8_toU8,
        addrModeFromU8_toU8]
    rfl
  refine ⟨hrt, ?_⟩
  intro i j hne henc
  apply hne
  have := hrt i
  rw [henc, hrt j] at this
  exact (Option.some_injective _ this).symm

/-- Witness for C8 at concrete instructions: the round trip at Mov.I $ $,
and injectivity at two distinct concrete instructions. -/
theorem c8_witness :
    decode (encode ⟨Opcode.Mov, Modifier.I, AddrMode.Direct,
      AddrMode.Direct⟩) = some ⟨Opcode.Mov, Modifier.I, AddrMode.Direct,
      AddrMode.Direct⟩ ∧
    encode ⟨Opcode.Dat, Modifier.F, AddrMode.Immediate, AddrMode.Immediate⟩ ≠
      encode ⟨Opcode.Dat, Modifier.F, AddrMode.Direct, AddrMode.Immediate⟩ :=
  ⟨c8_bytecode_roundtrip_injective.1 _,
   c8_bytecode_roundtrip_injective.2 _ _ (by decide)⟩

/-! ## Parser lemmas (for C9) -/

theorem parseLoop_no_end (ls : List LineContent)
    (instrs : List RelaxedCompleteInstruction) (s p : Option Int)
    (h : ∀ l ∈ ls, isEnd l = false) :
    (parseLoop ls instrs s p).start =
      (match lastOrg ls with
       | some x => x
       | none => s.getD 0) := by
  induction ls generalizing instrs s p with
  | nil => simp [parseLoop, lastOrg]
  | cons l rest ih =>
      have hl := h l (List.mem_cons_self _ _)
      have hrest : ∀ x ∈ rest, isEnd x = false :=
        fun x hx => h x (List.mem_cons_of_mem _ hx)
      cases l with
      | comment => simpa [parseLoop, lastOrg] using ih instrs s p hrest
      | emptyLine => simpa [parseLoop, lastOrg] using ih instrs s p hrest
      | instruction i =>
          simpa [parseLoop, lastOrg] using ih (instrs ++ [i]) s p hrest
      | pinStmt v =>
          simpa [parseLoop, lastOrg] using ih instrs s (some v) hrest
      | orgStmt v =>
          have := ih instrs (some v) p hrest
          rw [parseLoop, this]
          cases hlo : lastOrg rest <;> simp [lastOrg, hlo]
      | endStmt v => simp [isEnd] at hl

theorem parseLoop_until_end (pre : List LineContent) (v : Option Int)
    (rest : List LineContent) (instrs : List RelaxedCompleteInstruction)
    (s p : Option Int) (h : ∀ l ∈ pre, isEnd l = false) :
    (parseLoop (pre ++ LineContent.endStmt v :: rest) instrs s p).start =
      (match v with
       | some x => x
       | none =>
         match lastOrg pre with
         | some x => x
         | none => s.getD 0) := by
  induction pre generalizing instrs s p with
  | nil => cases v <;> simp [parseLoop, lastOrg]
  | cons l t ih =>
      have hl := h l (List.mem_cons_self _ _)
      have ht : ∀ x ∈ t, isEnd x = false :=
        fun x hx => h x (List.mem_cons_of_mem _ hx)
      cases l with
      | comment => simpa [parseLoop, lastOrg] using ih instrs s p ht
      | emptyLine => simpa [parseLoop, lastOrg] using ih instrs s p ht
      | instruction i =>
          simpa [parseLoop, lastOrg] using ih (instrs ++ [i]) s p ht
      | pinStmt w =>
          simpa [parseLoop, lastOrg] using ih instrs s (some w) ht
      | orgStmt w =>
          have := ih instrs (some w) p ht
          rw [List.cons_append, parseLoop, this]
          cases v with
          | some x => simp
          | none => cases hlo : lastOrg t <;> simp [lastOrg, hlo]
      | endStmt w => simp [isEnd] at hl

/-- C9: for every accepted loadfile, the start value of the parsed warrior
is the argument of the END statement when the first terminating END carries
one; otherwise the value of the last ORG before that END; otherwise 0.  The
second conjunct covers inputs whose parsing terminates at end of input
(parse_line yields End(None) there, which is the empty-stream arm of
parseLoop). -/
theorem c9_parse_start :
    (∀ (pre : List LineContent) (v : Option Int) (rest : List LineContent),
      (∀ l ∈ pre, isEnd l = false) →
      (parseLines (pre ++ LineContent.endStmt v :: rest)).start =
        (match v with
         | some x => x
         | none =>
           match lastOrg pre with
           | some x => x
           | none => 0)) ∧
    (∀ lines : List LineContent, (∀ l ∈ lines, isEnd l = false) →
      (parseLines lines).start =
        (match lastOrg lines with
         | some x => x
         | none => 0)) := by
  constructor
  · intro pre v rest h
    have := parseLoop_until_end pre v rest [] none none h
    simpa [parseLines] using this
  · intro lines h
    have := parseLoop_no_end lines [] none none h
    simpa [parseLines] using this

/-- Witness for C9: ORG 3 then ORG 7 before END with no argument yields
start 7; END 5 overrides a preceding ORG 3. -/
theorem c9_witness :
    (parseLines [LineContent.orgStmt 3, LineContent.orgStmt 7,
      LineContent.endStmt none]).start = 7 ∧
    (parseLines [LineContent.orgStmt 3,
      LineContent.endStmt (some 5)]).start = 5 := by
  constructor
  · have := c9_parse_start.1 [LineContent.orgStmt 3, LineContent.orgStmt 7]
      none [] (by decide)
    simpa [lastOrg] using this
  · have := c9_parse_start.1 [LineContent.orgStmt 3] (some 5) [] (by decide)
    simpa using this

/-! ## C3: write_core field validation -/

/-- The emulator produced by new(4, 0, 1, 1). -/
def c3emu : Emulator :=
  ⟨⟨[[]], 1⟩, List.replicate 4 defaultCI, PSpace.new 0, ⟨4, 0, 1, 1⟩⟩

/-- C3: the claim says write_core returns Error(InvalidParam) whenever
a_field ≥ core_size and leaves the cell unchanged.  The code instead
validates `addr` three times (the calls whose messages mention a_field and
b_field still pass addr), so write_core(0, Dat.F, 10, 0) on a core of size 4
succeeds and stores the out-of-range field value 10. -/
theorem c3_write_core_accepts_out_of_range_fields :
    Emulator.new 4 0 1 1 = Except.ok c3emu ∧
    (c3emu.write_core 0 (encode defaultInstruction) 10 0).map
      (fun e2 => (e2.core.getD 0 defaultCI).a_field) = Except.ok 10 ∧
    ¬(10 < c3emu.config.core_size) := by decide

/-! ## C4: construction bounds -/

/-- Counterexample to C4 as stated: core_size = 2^31 + 1 exceeds 2^31, yet
new succeeds (the code only rejects core_size above u32::MAX). -/
theorem c4_counterexample :
    2 ^ 31 < 2 ^ 31 + 1 ∧
    Emulator.new (2 ^ 31 + 1) 0 1 1 ≠ Except.error EmuError.invalidParam := by
  refine ⟨by norm_num, ?_⟩
  unfold Emulator.new
  rw [if_neg (by norm_num [u32Max]), if_neg (by norm_num)]
  intro h
  cases h

/-- C4 (amended): new rejects core_size > 2^32 - 1 (u32::MAX) — not 2^31 —
and pspace_size > core_size; every other parameter tuple yields an
emulator. -/
theorem c4_new_validation (cs ps w p : Nat) :
    (u32Max < cs →
      Emulator.new cs ps w p = Except.error EmuError.invalidParam) ∧
    (cs ≤ u32Max → cs < ps →
      Emulator.new cs ps w p = Except.error EmuError.invalidParam) ∧
    (cs ≤ u32Max → ps ≤ cs → ∃ e, Emulator.new cs ps w p = Except.ok e) := by
  unfold Emulator.new
  refine ⟨fun h => ?_, fun h1 h2 => ?_, fun h1 h2 => ?_⟩
  · rw [if_pos h]
  · rw [if_neg (by omega), if_pos h2]
  · rw [if_neg (by omega), if_neg (by omega)]
    exact ⟨_, rfl⟩

/-- Witness for C4 (amended) at core_size 8, pspace_size 2. -/
theorem c4_witness : ∃ e, Emulator.new 8 2 2 3 = Except.ok e :=
  (c4_new_validation 8 2 2 3).2.2 (by norm_num [u32Max]) (by norm_num)

/-! ## C5: Ldp pspace index -/

/-- PSPACE of size 2 with pin 7 allocated and warrior 0 assigned to it. -/
def c5pspace : PSpace := ⟨2, [(0, 7)], [(0, 0)], [(7, [0, 0])]⟩

/-- Register snapshot for Ldp.B with a.b_field = 3 (so the claimed source
index would be 3 mod 2 = 1). -/
def c5regs : RegisterValues :=
  ⟨⟨0, ⟨Opcode.Ldp, Modifier.B, AddrMode.Direct, AddrMode.Direct⟩, 0, 0⟩,
   ⟨0, defaultInstruction, 0, 3⟩, ⟨0, defaultInstruction, 0, 0⟩⟩

/-- Handler state for the C5 run: one warrior, core of size 1. -/
def c5state : OpState := ⟨⟨[[]], 8⟩, [defaultCI], c5pspace⟩

/-- C5: the claim (and ldp_op's own comment) says the PSPACE source index is
taken modulo pspace_size.  No modulo is applied: with pspace_size = 2 and
a.b_field = 3, PSpace::read indexes past the array and the handler fails with
InternalError instead of reading index 1 and writing the B target. -/
theorem c5_ldp_index_not_reduced :
    Except.bind ((PSpace.new 2).add_pspace 7)
      (fun p => p.assign_pspace 0 7) = Except.ok c5pspace ∧
    c5pspace.pspace_size = 2 ∧ (3 % 2 : Nat) = 1 ∧
    ldp_op 0 c5regs 8 c5state = Except.error EmuError.internalError := by
  decide

/-! ## C7: Spl push order and cap -/

theorem pushBackP_queues_length (pq : ProcessQueueSet) (v w : Nat) :
    (pushBackP pq v w).queues.length = pq.queues.length := by
  unfold pushBackP
  cases pq.queues.get? w with
  | none => rfl
  | some q =>
      by_cases hlen : q.length < pq.maxProcesses <;>
        simp [hlen, List.length_set]

theorem pushBackP_maxProcesses (pq : ProcessQueueSet) (v w : Nat) :
    (pushBackP pq v w).maxProcesses = pq.maxProcesses := by
  unfold pushBackP
  cases pq.queues.get? w with
  | none => rfl
  | some q =>
      by_cases hlen : q.length < pq.maxProcesses <;> simp [hlen]

theorem get?_eq_some_getD {α : Type} (l : List α) (i : Nat) (d : α)
    (h : i < l.length) : l.get? i = some (l.getD i d) := by
  induction l generalizing i with
  | nil => simp at h
  | cons a t ih =>
      cases i with
      | zero => rfl
      | succ n =>
          simp only [List.get?, List.getD]
          exact ih n (by simpa using h)

/-- C7: spl_op enqueues (current.idx + 1) mod N first, then a.idx, both
through the capped push; when the queue holds exactly maxProcesses - 1
entries at handler entry, only the next PC lands in the queue and a.idx is
silently dropped. -/
theorem c7_spl_order_and_cap (warrior_id : Nat) (regs : RegisterValues)
    (core_size : Nat) (s : OpState) (hsz : 0 < core_size)
    (hw : warrior_id < s.pq.queues.length) :
    spl_op warrior_id regs core_size s =
      Except.ok ⟨pushBackP (pushBackP s.pq
          ((regs.current.idx + 1) % core_size) warrior_id)
          regs.a.idx warrior_id, s.core, s.pspace⟩ ∧
    (1 ≤ s.pq.maxProcesses →
      (s.pq.queues.getD warrior_id []).length = s.pq.maxProcesses - 1 →
      (pushBackP (pushBackP s.pq ((regs.current.idx + 1) % core_size)
          warrior_id) regs.a.idx warrior_id).queues.getD warrior_id [] =
        (s.pq.queues.getD warrior_id []) ++
          [(regs.current.idx + 1) % core_size]) := by
  constructor
  · unfold spl_op
    rw [offset_one_ok _ _ hsz]
    simp only [push_back_eq _ _ _ hw,
      push_back_eq _ _ _ (show warrior_id < (pushBackP s.pq
        ((regs.current.idx + 1) % core_size)
        warrior_id).queues.length by rw [pushBackP_queues_length]; exact hw)]
  · intro hmax hlen
    set q := s.pq.queues.getD warrior_id [] with hqdef
    set next := (regs.current.idx + 1) % core_size with hnextdef
    have hget : s.pq.queues.get? warrior_id = some q :=
      get?_eq_some_getD _ _ _ hw
    have hfirst : pushBackP s.pq next warrior_id =
        ⟨s.pq.queues.set warrior_id (q ++ [next]), s.pq.maxProcesses⟩ := by
      unfold pushBackP
      rw [hget]
      simp only []
      rw [if_pos (by omega)]
    rw [hfirst]
    have hlt : warrior_id <
        (s.pq.queues.set warrior_id (q ++ [next])).length := by
      rw [List.length_set]; exact hw
    have hget2 : (s.pq.queues.set warrior_id (q ++ [next])).get? warrior_id =
        some (q ++ [next]) := by
      rw [get?_eq_some_getD _ _ [] hlt, getD_set_self _ _ _ _ hw]
    unfold pushBackP
    simp only [hget2]
    rw [if_neg (by simp; omega)]
    exact getD_set_self _ _ _ _ hw

/-- Register snapshot for the C7 witness: current.idx 3, a.idx 6. -/
def c7regs : RegisterValues :=
  ⟨⟨3, ⟨Opcode.Spl, Modifier.B, AddrMode.Direct, AddrMode.Direct⟩, 0, 0⟩,
   ⟨6, defaultInstruction, 0, 0⟩, ⟨0, defaultInstruction, 0, 0⟩⟩

/-- Handler state for the C7 witness: queue [5] with cap 2 (one below). -/
def c7s : OpState := ⟨⟨[[5]], 2⟩, [defaultCI], PSpace.new 0⟩

/-- Witness for C7: with one slot left, Spl enqueues only the next PC 4 and
drops a.idx 6. -/
theorem c7_witness :
    spl_op 0 c7regs 8 c7s =
      Except.ok ⟨pushBackP (pushBackP c7s.pq
          ((c7regs.current.idx + 1) % 8) 0) c7regs.a.idx 0,
          c7s.core, c7s.pspace⟩ ∧
    (1 ≤ c7s.pq.maxProcesses →
      (c7s.pq.queues.getD 0 []).length = c7s.pq.maxProcesses - 1 →
      (pushBackP (pushBackP c7s.pq ((c7regs.current.idx + 1) % 8)
          0) c7regs.a.idx 0).queues.getD 0 [] =
        (c7s.pq.queues.getD 0 []) ++ [(c7regs.current.idx + 1) % 8]) :=
  c7_spl_order_and_cap 0 c7regs 8 c7s (by decide) (by decide)

/-! ## C1: Div and Mod partial success -/

theorem pa_divmod (l r : Nat) (op : Opcode) (N : Nat)
    (hop : op = Opcode.Div ∨ op = Opcode.Mod) :
    perform_arithmetic l r op N =
      if r = 0 then none else some (Except.ok (divModApp op l r)) := by
  rcases hop with h | h <;> subst h <;> rfl

/-- C1: for Div and Mod, each destination field's write is guarded by its
own divisor (the corresponding source field of the A operand), and the
next-PC enqueue happens exactly when no divisor was zero.  For F and I the
divisors are a.a (guarding the B target's a_field) and a.b (guarding its
b_field); for X they are a.a (guarding b_field) and a.b (guarding a_field);
for the one-field modifiers the single divisor guards the single write.
An enqueue is the capped push of (current.idx + 1) mod N. -/
theorem c1_div_mod_guarded (warrior_id : Nat) (regs : RegisterValues)
    (core_size : Nat) (s : OpState)
    (hop : regs.current.instr.opcode = Opcode.Div ∨
           regs.current.instr.opcode = Opcode.Mod)
    (hsz : 0 < core_size)
    (hw : warrior_id < s.pq.queues.length)
    (hidx : regs.b.idx < s.core.length) :
    ((regs.current.instr.modifier = Modifier.F ∨
      regs.current.instr.modifier = Modifier.I) →
      ((regs.a.a_field = 0 → regs.a.b_field = 0 →
          arithmetic_op warrior_id regs core_size s = Except.ok s) ∧
       (regs.a.a_field ≠ 0 → regs.a.b_field = 0 →
          arithmetic_op warrior_id regs core_size s = Except.ok
            ⟨s.pq, s.core.set regs.b.idx
              { s.core.getD regs.b.idx defaultCI with
                  a_field := divModApp regs.current.instr.opcode
                    regs.b.a_field regs.a.a_field }, s.pspace⟩) ∧
       (regs.a.a_field = 0 → regs.a.b_field ≠ 0 →
          arithmetic_op warrior_id regs core_size s = Except.ok
            ⟨s.pq, s.core.set regs.b.idx
              { s.core.getD regs.b.idx defaultCI with
                  b_field := divModApp regs.current.instr.opcode
                    regs.b.b_field regs.a.b_field }, s.pspace⟩) ∧
       (regs.a.a_field ≠ 0 → regs.a.b_field ≠ 0 →
          arithmetic_op warrior_id regs core_size s = Except.ok
            ⟨pushBackP s.pq ((regs.current.idx + 1) % core_size) warrior_id,
             s.core.set regs.b.idx
              { s.core.getD regs.b.idx defaultCI with
                  a_field := divModApp regs.current.instr.opcode
                    regs.b.a_field regs.a.a_field,
                  b_field := divModApp regs.current.instr.opcode
                    regs.b.b_field regs.a.b_field }, s.pspace⟩))) ∧
    (regs.current.instr.modifier = Modifier.X →
      ((regs.a.a_field = 0 → regs.a.b_field = 0 →
          arithmetic_op warrior_id regs core_size s = Except.ok s) ∧
       (regs.a.a_field ≠ 0 → regs.a.b_field = 0 →
          arithmetic_op warrior_id regs core_size s = Except.ok
            ⟨s.pq, s.core.set regs.b.idx
              { s.core.getD regs.b.idx defaultCI with
                  b_field := divModApp regs.current.instr.opcode
                    regs.b.b_field regs.a.a_field }, s.pspace⟩) ∧
       (regs.a.a_field = 0 → regs.a.b_field ≠ 0 →
          arithmetic_op warrior_id regs core_size s = Except.ok
            ⟨s.pq, s.core.set regs.b.idx
              { s.core.getD regs.b.idx defaultCI with
                  a_field := divModApp regs.current.instr.opcode
                    regs.b.a_field regs.a.b_field }, s.pspace⟩) ∧
       (regs.a.a_field ≠ 0 → regs.a.b_field ≠ 0 →
          arithmetic_op warrior_id regs core_size s = Except.ok
            ⟨pushBackP s.pq ((regs.current.idx + 1) % core_size) warrior_id,
             s.core.set regs.b.idx
              { s.core.getD regs.b.idx defaultCI with
                  a_field := divModApp regs.current.instr.opcode
                    regs.b.a_field regs.a.b_field,
                  b_field := divModApp regs.current.instr.opcode
                    regs.b.b_field regs.a.a_field }, s.pspace⟩))) ∧
    (regs.current.instr.modifier = Modifier.A →
      ((regs.a.a_field = 0 →
          arithmetic_op warrior_id regs core_size s = Except.ok s) ∧
       (regs.a.a_field ≠ 0 →
          arithmetic_op warrior_id regs core_size s = Except.ok
            ⟨pushBackP s.pq ((regs.current.idx + 1) % core_size) warrior_id,
             s.core.set regs.b.idx
              { s.core.getD regs.b.idx defaultCI with
                  a_field := divModApp regs.current.instr.opcode
                    regs.b.a_field regs.a.a_field }, s.pspace⟩))) ∧
    (regs.current.instr.modifier = Modifier.B →
      ((regs.a.b_field = 0 →
          arithmetic_op warrior_id regs core_size s = Except.ok s) ∧
       (regs.a.b_field ≠ 0 →
          arithmetic_op warrior_id regs core_size s = Except.ok
            ⟨pushBackP s.pq ((regs.current.idx + 1) % core_size) warrior_id,
             s.core.set regs.b.idx
              { s.core.getD regs.b.idx defaultCI with
                  b_field := divModApp regs.current.instr.opcode
                    regs.b.b_field regs.a.b_field }, s.pspace⟩))) ∧
    (regs.current.instr.modifier = Modifier.AB →
      ((regs.a.a_field = 0 →
          arithmetic_op warrior_id regs core_size s = Except.ok s) ∧
       (regs.a.a_field ≠ 0 →
          arithmetic_op warrior_id regs core_size s = Except.ok
            ⟨pushBackP s.pq ((regs.current.idx + 1) % core_size) warrior_id,
             s.core.set regs.b.idx
              { s.core.getD regs.b.idx defaultCI with
                  b_field := divModApp regs.current.instr.opcode
                    regs.b.b_field regs.a.a_field }, s.pspace⟩))) ∧
    (regs.current.instr.modifier = Modifier.BA →
      ((regs.a.b_field = 0 →
          arithmetic_op warrior_id regs core_size s = Except.ok s) ∧
       (regs.a.b_field ≠ 0 →
          arithmetic_op warrior_id regs core_size s = Except.ok
            ⟨pushBackP s.pq ((regs.current.idx + 1) % core_size) warrior_id,
             s.core.set regs.b.idx
              { s.core.getD regs.b.idx defaultCI with
                  a_field := divModApp regs.current.instr.opcode
                    regs.b.a_field regs.a.b_field }, s.pspace⟩))) := by
  have hnext := offset_one_ok regs.current.idx core_size hsz
  have hpush := push_back_eq s.pq ((regs.current.idx + 1) % core_size)
    warrior_id hw
  have hpa := fun l r => pa_divmod l r regs.current.instr.opcode core_size hop
  refine ⟨?_, ?_, ?_, ?_, ?_, ?_⟩
  · rintro (hmf | hmf) <;>
      refine ⟨fun h1 h2 => ?_, fun h1 h2 => ?_, fun h1 h2 => ?_,
              fun h1 h2 => ?_⟩ <;>
      simp [arithmetic_op, hmf, hnext, hsz.ne', hpa, h1, h2, hpush,
            coreSetA, coreSetB, coreSetAB, hidx]
  · rintro hmf
    refine ⟨fun h1 h2 => ?_, fun h1 h2 => ?_, fun h1 h2 => ?_,
            fun h1 h2 => ?_⟩ <;>
      simp [arithmetic_op, hmf, hnext, hsz.ne', hpa, h1, h2, hpush,
            coreSetA, coreSetB, coreSetAB, hidx]
  · rintro hmf
    refine ⟨fun h1 => ?_, fun h1 => ?_⟩ <;>
      simp [arithmetic_op, hmf, hnext, hsz.ne', hpa, h1, hpush,
            coreSetA, coreSetB, hidx]
  · rintro hmf
    refine ⟨fun h1 => ?_, fun h1 => ?_⟩ <;>
      simp [arithmetic_op, hmf, hnext, hsz.ne', hpa, h1, hpush,
            coreSetA, coreSetB, hidx]
  · rintro hmf
    refine ⟨fun h1 => ?_, fun h1 => ?_⟩ <;>
      simp [arithmetic_op, hmf, hnext, hsz.ne', hpa, h1, hpush,
            coreSetA, coreSetB, hidx]
  · rintro hmf
    refine ⟨fun h1 => ?_, fun h1 => ?_⟩ <;>
      simp [arithmetic_op, hmf, hnext, hsz.ne', hpa, h1, hpush,
            coreSetA, coreSetB, hidx]

/-- Concrete inputs for the C1 witness: Div.F with a.a_field = 2 (nonzero)
and a.b_field = 0 (zero divisor). -/
def c1regs : RegisterValues :=
  ⟨⟨0, ⟨Opcode.Div, Modifier.F, AddrMode.Immediate, AddrMode.Immediate⟩,
    0, 0⟩,
   ⟨1, defaultInstruction, 2, 0⟩, ⟨1, defaultInstruction, 6, 7⟩⟩

/-- Handler state for the C1 witness. -/
def c1s : OpState :=
  ⟨⟨[[]], 8⟩, [defaultCI, ⟨defaultInstruction, 6, 7⟩], PSpace.new 0⟩

/-- Witness for C1 at Div.F with exactly one zero divisor: only the a_field
of the B target is written (6 / 2) and nothing is enqueued. -/
theorem c1_witness :
    arithmetic_op 0 c1regs 8 c1s = Except.ok
      ⟨c1s.pq, c1s.core.set 1 { c1s.core.getD 1 defaultCI with
          a_field := divModApp c1regs.current.instr.opcode
            c1regs.b.a_field c1regs.a.a_field }, c1s.pspace⟩ :=
  ((c1_div_mod_guarded 0 c1regs 8 c1s (Or.inl rfl) (by decide) (by decide)
      (by decide)).1 (Or.inl rfl)).2.1 (by decide) (by decide)

/-! ## C2: PostincA semantics -/

/-- The A operand's indirect index (pc + a_field) mod N, written in the
operand-evaluator's own operand order. -/
def aIndirect (pc : Nat) (core : List CompleteInstruction) : Nat :=
  ((core.getD pc defaultCI).a_field + pc) % core.length

/-- The core after the A operand's PostincA increment. -/
def postincACore (pc : Nat) (core : List CompleteInstruction) :
    List CompleteInstruction :=
  core.set (aIndirect pc core)
    { core.getD (aIndirect pc core) defaultCI with
        a_field := ((core.getD (aIndirect pc core) defaultCI).a_field + 1) %
          core.length }

/-- The A target resolved by PostincA: indirect base plus the (pre-increment)
a_field it points at. -/
def aTargetPostincA (pc : Nat) (core : List CompleteInstruction) : Nat :=
  (aIndirect pc core +
    (core.getD (aIndirect pc core) defaultCI).a_field) % core.length

theorem evalOperand_postincA (pc f : Nat) (core : List CompleteInstruction)
    (hsz : 0 < core.length) :
    evalOperand pc f AddrMode.PostincA core = Except.ok
      (((f + pc) % core.length +
          (core.getD ((f + pc) % core.length) defaultCI).a_field) %
          core.length,
       core.getD (((f + pc) % core.length +
          (core.getD ((f + pc) % core.length) defaultCI).a_field) %
          core.length) defaultCI,
       core.set ((f + pc) % core.length)
         { core.getD ((f + pc) % core.length) defaultCI with
             a_field := ((core.getD ((f + pc) % core.length)
               defaultCI).a_field + 1) % core.length }) := by
  simp only [evalOperand, opAdd]
  rw [offset_nat_ok _ _ _ hsz]
  simp only []
  rw [offset_nat_ok _ _ _ hsz]
  simp only []
  rw [offset_one_ok _ _ hsz]

theorem wf_set_field (core : List CompleteInstruction) (i : Nat)
    (cell : CompleteInstruction) (hwf : WellFormedCore core)
    (_hi : i < core.length)
    (ha : cell.a_field < core.length) (hb : cell.b_field < core.length) :
    WellFormedCore (core.set i cell) := by
  intro c hc
  rw [List.length_set]
  rcases mem_set_cases hc with h | h
  · rw [h]; exact ⟨ha, hb⟩
  · exact hwf c h

theorem wf_fields (core : List CompleteInstruction) (i : Nat)
    (hwf : WellFormedCore core) (hi : i < core.length) :
    (core.getD i defaultCI).a_field < core.length ∧
    (core.getD i defaultCI).b_field < core.length :=
  hwf _ (getD_mem _ _ _ hi)

theorem evalOperand_spec (pc f : Nat) (m : AddrMode)
    (core : List CompleteInstruction) (hsz : 0 < core.length)
    (hwf : WellFormedCore core) (hpc : pc < core.length) :
    ∃ t snap core2, evalOperand pc f m core = Except.ok (t, snap, core2) ∧
      core2.length = core.length ∧
      t < core.length ∧
      snap.a_field < core.length ∧ snap.b_field < core.length ∧
      WellFormedCore core2 ∧
      (∀ j, (¬(m = AddrMode.PredecA ∨ m = AddrMode.PostincA) ∨
          j ≠ (f + pc) % core.length) →
        (core2.getD j defaultCI).a_field =
          (core.getD j defaultCI).a_field) ∧
      (m = AddrMode.IndirectA →
        t = ((f + pc) % core.length +
          (core.getD ((f + pc) % core.length) defaultCI).a_field) %
          core.length) := by
  have hind : (f + pc) % core.length < core.length := Nat.mod_lt _ hsz
  have hcellA := (wf_fields core ((f + pc) % core.length) hwf hind).1
  have hcellB := (wf_fields core ((f + pc) % core.length) hwf hind).2
  cases m with
  | Immediate =>
      refine ⟨pc, core.getD pc defaultCI, core, ?_, rfl, hpc,
        (wf_fields core pc hwf hpc).1, (wf_fields core pc hwf hpc).2, hwf,
        fun j _ => rfl, fun h => by cases h⟩
      simp only [evalOperand, opAdd]
      rw [offset_nat_ok _ _ _ hsz]
  | Direct =>
      refine ⟨(f + pc) % core.length,
        core.getD ((f + pc) % core.length) defaultCI, core, ?_, rfl, hind,
        hcellA, hcellB, hwf, fun j _ => rfl, fun h => by cases h⟩
      simp only [evalOperand, opAdd]
      rw [offset_nat_ok _ _ _ hsz]
  | IndirectA =>
      have htgt : ((f + pc) % core.length +
          (core.getD ((f + pc) % core.length) defaultCI).a_field) %
          core.length < core.length := Nat.mod_lt _ hsz
      refine ⟨_, _, core, ?_, rfl, htgt, (wf_fields core _ hwf htgt).1,
        (wf_fields core _ hwf htgt).2, hwf, fun j _ => rfl, fun _ => rfl⟩
      simp only [evalOperand, opAdd]
      rw [offset_nat_ok _ _ _ hsz]
      simp only []
      rw [offset_nat_ok _ _ _ hsz]
  | IndirectB =>
      have htgt : ((f + pc) % core.length +
          (core.getD ((f + pc) % core.length) defaultCI).b_field) %
          core.length < core.length := Nat.mod_lt _ hsz
      refine ⟨_, _, core, ?_, rfl, htgt, (wf_fields core _ hwf htgt).1,
        (wf_fields core _ hwf htgt).2, hwf, fun j _ => rfl,
        fun h => by cases h⟩
      simp only [evalOperand, opAdd]
      rw [offset_nat_ok _ _ _ hsz]
      simp only []
      rw [offset_nat_ok _ _ _ hsz]
  | PredecA =>
      set i := (f + pc) % core.length with hidef
      set cell := core.getD i defaultCI with hcelldef
      set dec := (cell.a_field + (core.length - 1)) % core.length with hdec
      set core1 := core.set i { cell with a_field := dec } with hc1
      have hdeclt : dec < core.length := Nat.mod_lt _ hsz
      have hwf1 : WellFormedCore core1 :=
        wf_set_field core i _ hwf hind hdeclt hcellB
      have hlen1 : core1.length = core.length := List.length_set _ _ _
      have hget1 : core1.getD i defaultCI = { cell with a_field := dec } :=
        getD_set_self _ _ _ _ hind
      have htgt : (i + dec) % core.length < core.length := Nat.mod_lt _ hsz
      have hsnapA : (core1.getD ((i + dec) % core.length)
          defaultCI).a_field < core.length := by
        have := (wf_fields core1 ((i + dec) % core.length) hwf1
          (by rw [hlen1]; exact htgt)).1
        rwa [hlen1] at this
      have hsnapB : (core1.getD ((i + dec) % core.length)
          defaultCI).b_field < core.length := by
        have := (wf_fields core1 ((i + dec) % core.length) hwf1
          (by rw [hlen1]; exact htgt)).2
        rwa [hlen1] at this
      refine ⟨(i + dec) % core.length,
        core1.getD ((i + dec) % core.length) defaultCI, core1, ?_,
        hlen1, htgt, hsnapA, hsnapB, hwf1, ?_, fun h => by cases h⟩
      · simp only [evalOperand, opAdd]
        rw [offset_nat_ok _ _ _ hsz]
        simp only [← hidef]
        have hoff : offset cell.a_field (-1) core.length =
            Except.ok dec := by
          rw [offset_neg_one_ok _ _ hsz, hdec]
        rw [← hcelldef, hoff]
        simp only []
        rw [hget1]
        simp only []
        rw [offset_nat_ok _ _ _ hsz]
      · intro j hj
        rcases hj with hj | hj
        · exact absurd (Or.inl rfl) hj
        · rw [hc1, getD_set_ne _ _ _ _ _ (by rw [hidef] at hj ⊢; exact hj)]
  | PredecB =>
      set i := (f + pc) % core.length with hidef
      set cell := core.getD i defaultCI with hcelldef
      set dec := (cell.b_field + (core.length - 1)) % core.length with hdec
      set core1 := core.set i { cell with b_field := dec } with hc1
      have hdeclt : dec < core.length := Nat.mod_lt _ hsz
      have hwf1 : WellFormedCore core1 :=
        wf_set_field core i _ hwf hind hcellA hdeclt
      have hlen1 : core1.length = core.length := List.length_set _ _ _
      have hget1 : core1.getD i defaultCI = { cell with b_field := dec } :=
        getD_set_self _ _ _ _ hind
      have htgt : (i + dec) % core.length < core.length := Nat.mod_lt _ hsz
      have hsnapA : (core1.getD ((i + dec) % core.length)
          defaultCI).a_field < core.length := by
        have := (wf_fields core1 ((i + dec) % core.length) hwf1
          (by rw [hlen1]; exact htgt)).1
        rwa [hlen1] at this
      have hsnapB : (core1.getD ((i + dec) % core.length)
          defaultCI).b_field < core.length := by
        have := (wf_fields core1 ((i + dec) % core.length) hwf1
          (by rw [hlen1]; exact htgt)).2
        rwa [hlen1] at this
      refine ⟨(i + dec) % core.length,
        core1.getD ((i + dec) % core.length) defaultCI, core1, ?_,
        hlen1, htgt, hsnapA, hsnapB, hwf1, ?_, fun h => by cases h⟩
      · simp only [evalOperand, opAdd]
        rw [offset_nat_ok _ _ _ hsz]
        simp only [← hidef]
        have hoff : offset cell.b_field (-1) core.length =
            Except.ok dec := by
          rw [offset_neg_one_ok _ _ hsz, hdec]
        rw [← hcelldef, hoff]
        simp only []
        rw [hget1]
        simp only []
        rw [offset_nat_ok _ _ _ hsz]
      · intro j hj
        rw [hc1]
        by_cases hji : j = i
        · subst hji
          rw [getD_set_self _ _ _ _ hind]
        · rw [getD_set_ne _ _ _ _ _ hji]
  | PostincA =>
      set i := (f + pc) % core.length with hidef
      set cell := core.getD i defaultCI with hcelldef
      set inc := (cell.a_field + 1) % core.length with hinc
      have hinclt : inc < core.length := Nat.mod_lt _ hsz
      set core2 := core.set i { cell with a_field := inc } with hc2
      have hwf2 : WellFormedCore core2 :=
        wf_set_field core i _ hwf hind hinclt hcellB
      have hlen2 : core2.length = core.length := List.length_set _ _ _
      have htgt : (i + cell.a_field) % core.length < core.length :=
        Nat.mod_lt _ hsz
      refine ⟨(i + cell.a_field) % core.length,
        core.getD ((i + cell.a_field) % core.length) defaultCI, core2, ?_,
        hlen2, htgt, (wf_fields core _ hwf htgt).1,
        (wf_fields core _ hwf htgt).2, hwf2, ?_, fun h => by cases h⟩
      · have := evalOperand_postincA pc f core hsz
        rw [this]
      · intro j hj
        rcases hj with hj | hj
        · exact absurd (Or.inr rfl) hj
        · rw [hc2, getD_set_ne _ _ _ _ _ (by rw [hidef] at hj ⊢; exact hj)]
  | PostincB =>
      set i := (f + pc) % core.length with hidef
      set cell := core.getD i defaultCI with hcelldef
      set inc := (cell.b_field + 1) % core.length with hinc
      have hinclt : inc < core.length := Nat.mod_lt _ hsz
      set core2 := core.set i { cell with b_field := inc } with hc2
      have hwf2 : WellFormedCore core2 :=
        wf_set_field core i _ hwf hind hcellA hinclt
      have hlen2 : core2.length = core.length := List.length_set _ _ _
      have htgt : (i + cell.b_field) % core.length < core.length :=
        Nat.mod_lt _ hsz
      refine ⟨(i + cell.b_field) % core.length,
        core.getD ((i + cell.b_field) % core.length) defaultCI, core2, ?_,
        hlen2, htgt, (wf_fields core _ hwf htgt).1,
        (wf_fields core _ hwf htgt).2, hwf2, ?_, fun h => by cases h⟩
      · simp only [evalOperand, opAdd]
        rw [offset_nat_ok _ _ _ hsz]
        simp only [← hidef]
        rw [← hcelldef]
        rw [offset_nat_ok _ _ _ hsz]
        simp only []
        rw [offset_one_ok _ _ hsz]
      · intro j hj
        rw [hc2]
        by_cases hji : j = i
        · subst hji
          rw [getD_set_self _ _ _ _ hind]
        · rw [getD_set_ne _ _ _ _ _ hji]

/-- Counterexample core for C2: the instruction at 0 is PostincA on the A
operand and PredecA on the B operand, with both fields 0, so both operands
point back at cell 0 and the B predecrement undoes the A postincrement. -/
def c2core : List CompleteInstruction :=
  [⟨⟨Opcode.Dat, Modifier.F, AddrMode.PostincA, AddrMode.PredecA⟩, 0, 0⟩,
   defaultCI, defaultCI, defaultCI]

/-- Counterexample to C2 as stated: after evaluate returns,
core[(PC + a_field) mod N].a_field is 0, its original value, not increased
by 1 mod N — the B operand's predecrement hit the same field. -/
theorem c2_counterexample :
    (evaluate 0 c2core).map (fun p => (p.2.getD 0 defaultCI).a_field) =
      Except.ok 0 ∧
    ((c2core.getD 0 defaultCI).a_field + 1) % c2core.length = 1 ∧
    (0 : Nat) ≠ 1 := by decide

/-- C2 (amended): for a_mode = PostincA, the A phase returns the
pre-increment snapshot of the A target and hands the B phase the core with
core[(PC + a_field) mod N].a_field already incremented (so an aliasing B
operand reads the incremented value); after evaluate returns the field has
increased by 1 mod N provided the B operand's own side effect (PredecA or
PostincA) does not target the same cell. -/
theorem c2_postincA (pc : Nat) (core : List CompleteInstruction)
    (hsz : 0 < core.length) (hpc : pc < core.length)
    (hwf : WellFormedCore core)
    (hmode : (core.getD pc defaultCI).instr.a_addr_mode =
      AddrMode.PostincA) :
    ∃ regs core2, evaluate pc core = Except.ok (regs, core2) ∧
      evalOperand pc (core.getD pc defaultCI).a_field AddrMode.PostincA
          core = Except.ok (aTargetPostincA pc core,
          core.getD (aTargetPostincA pc core) defaultCI,
          postincACore pc core) ∧
      ((postincACore pc core).getD (aIndirect pc core) defaultCI).a_field =
        ((core.getD (aIndirect pc core) defaultCI).a_field + 1) %
          core.length ∧
      regs.a.idx = aTargetPostincA pc core ∧
      regs.a.instr = (core.getD (aTargetPostincA pc core) defaultCI).instr ∧
      regs.a.a_field =
        (core.getD (aTargetPostincA pc core) defaultCI).a_field ∧
      regs.a.b_field =
        (core.getD (aTargetPostincA pc core) defaultCI).b_field ∧
      (∃ bt bsnap, evalOperand pc (core.getD pc defaultCI).b_field
          (core.getD pc defaultCI).instr.b_addr_mode (postincACore pc core) =
          Except.ok (bt, bsnap, core2) ∧ regs.b.idx = bt) ∧
      ((((core.getD pc defaultCI).instr.b_addr_mode = AddrMode.PredecA ∨
          (core.getD pc defaultCI).instr.b_addr_mode = AddrMode.PostincA) →
          ((core.getD pc defaultCI).b_field + pc) % core.length ≠
            aIndirect pc core) →
        (core2.getD (aIndirect pc core) defaultCI).a_field =
          ((core.getD (aIndirect pc core) defaultCI).a_field + 1) %
            core.length) := by
  set cur := core.getD pc defaultCI with hcur
  have hget : core.get? pc = some cur := get?_eq_some_getD _ _ _ hpc
  have hindlt : aIndirect pc core < core.length := Nat.mod_lt _ hsz
  have htgtlt : aTargetPostincA pc core < core.length := Nat.mod_lt _ hsz
  have hA : evalOperand pc cur.a_field AddrMode.PostincA core =
      Except.ok (aTargetPostincA pc core,
        core.getD (aTargetPostincA pc core) defaultCI,
        postincACore pc core) := by
    rw [evalOperand_postincA pc cur.a_field core hsz]
    rfl
  have hlenA : (postincACore pc core).length = core.length :=
    List.length_set _ _ _
  have hszA : 0 < (postincACore pc core).length := by rw [hlenA]; exact hsz
  have hwfA : WellFormedCore (postincACore pc core) := by
    have hbnd := wf_fields core (aIndirect pc core) hwf hindlt
    have := wf_set_field core (aIndirect pc core)
      { core.getD (aIndirect pc core) defaultCI with
          a_field := ((core.getD (aIndirect pc core) defaultCI).a_field + 1)
            % core.length }
      hwf hindlt (Nat.mod_lt _ hsz) hbnd.2
    exact this
  have hpcA : pc < (postincACore pc core).length := by
    rw [hlenA]; exact hpc
  obtain ⟨bt, bsnap, coreB, hB, hlenB, hbt, hba, hbb, _, hpres, _⟩ :=
    evalOperand_spec pc cur.b_field cur.instr.b_addr_mode
      (postincACore pc core) hszA hwfA hpcA
  have hcurA := (wf_fields core pc hwf hpc).1
  have hcurB := (wf_fields core pc hwf hpc).2
  have hsnapA := (wf_fields core (aTargetPostincA pc core) hwf htgtlt).1
  have hsnapB := (wf_fields core (aTargetPostincA pc core) hwf htgtlt).2
  have hbtlen : bt < core.length := by rw [← hlenA]; exact hbt
  have hbalen : bsnap.a_field < core.length := by rw [← hlenA]; exact hba
  have hbblen : bsnap.b_field < core.length := by rw [← hlenA]; exact hbb
  have heval : evaluate pc core = Except.ok
      (⟨⟨pc, cur.instr, cur.a_field, cur.b_field⟩,
        ⟨aTargetPostincA pc core,
         (core.getD (aTargetPostincA pc core) defaultCI).instr,
         (core.getD (aTargetPostincA pc core) defaultCI).a_field,
         (core.getD (aTargetPostincA pc core) defaultCI).b_field⟩,
        ⟨bt, bsnap.instr, bsnap.a_field, bsnap.b_field⟩⟩, coreB) := by
    unfold evaluate
    rw [hget]
    simp only []
    rw [hmode, hA]
    simp only []
    rw [hB]
    simp only [validate]
    rw [if_pos hpc, if_pos hcurA, if_pos hcurB, if_pos htgtlt,
        if_pos hsnapA, if_pos hsnapB, if_pos hbtlen, if_pos hbalen,
        if_pos hbblen]
  refine ⟨_, coreB, heval, hA, ?_, rfl, rfl, rfl, rfl,
    ⟨bt, bsnap, hB, rfl⟩, ?_⟩
  · unfold postincACore
    rw [getD_set_self _ _ _ _ hindlt]
  · intro halias
    have hcond : (¬(cur.instr.b_addr_mode = AddrMode.PredecA ∨
        cur.instr.b_addr_mode = AddrMode.PostincA) ∨
        aIndirect pc core ≠
          (cur.b_field + pc) % (postincACore pc core).length) := by
      by_cases hmem : cur.instr.b_addr_mode = AddrMode.PredecA ∨
          cur.instr.b_addr_mode = AddrMode.PostincA
      · right
        rw [hlenA]
        exact fun hc => (halias hmem) hc.symm
      · left; exact hmem
    have := hpres (aIndirect pc core) hcond
    rw [this]
    unfold postincACore
    rw [getD_set_self _ _ _ _ hindlt]

/-- Concrete core for the C2 witness: PostincA whose pointers stay inside a
well-formed core of size 4. -/
def c2wcore : List CompleteInstruction :=
  [⟨⟨Opcode.Mov, Modifier.A, AddrMode.PostincA, AddrMode.Direct⟩, 1, 2⟩,
   ⟨defaultInstruction, 3, 1⟩, defaultCI, defaultCI]

/-- Witness for C2 (amended) at PC 0 on c2wcore. -/
theorem c2_witness :
    ∃ regs core2, evaluate 0 c2wcore = Except.ok (regs, core2) ∧
      evalOperand 0 (c2wcore.getD 0 defaultCI).a_field AddrMode.PostincA
          c2wcore = Except.ok (aTargetPostincA 0 c2wcore,
          c2wcore.getD (aTargetPostincA 0 c2wcore) defaultCI,
          postincACore 0 c2wcore) ∧
      ((postincACore 0 c2wcore).getD (aIndirect 0 c2wcore)
          defaultCI).a_field =
        ((c2wcore.getD (aIndirect 0 c2wcore) defaultCI).a_field + 1) %
          c2wcore.length ∧
      regs.a.idx = aTargetPostincA 0 c2wcore ∧
      regs.a.instr =
        (c2wcore.getD (aTargetPostincA 0 c2wcore) defaultCI).instr ∧
      regs.a.a_field =
        (c2wcore.getD (aTargetPostincA 0 c2wcore) defaultCI).a_field ∧
      regs.a.b_field =
        (c2wcore.getD (aTargetPostincA 0 c2wcore) defaultCI).b_field ∧
      (∃ bt bsnap, evalOperand 0 (c2wcore.getD 0 defaultCI).b_field
          (c2wcore.getD 0 defaultCI).instr.b_addr_mode
          (postincACore 0 c2wcore) =
          Except.ok (bt, bsnap, core2) ∧ regs.b.idx = bt) ∧
      ((((c2wcore.getD 0 defaultCI).instr.b_addr_mode = AddrMode.PredecA ∨
          (c2wcore.getD 0 defaultCI).instr.b_addr_mode =
            AddrMode.PostincA) →
          ((c2wcore.getD 0 defaultCI).b_field + 0) % c2wcore.length ≠
            aIndirect 0 c2wcore) →
        (core2.getD (aIndirect 0 c2wcore) defaultCI).a_field =
          ((c2wcore.getD (aIndirect 0 c2wcore) defaultCI).a_field + 1) %
            c2wcore.length) :=
  c2_postincA 0 c2wcore (by decide) (by decide) (by decide) (by decide)

/-! ## C10: initialize_pspace -/

theorem alookup_ainsert_self {α : Type} (l : List (Nat × α)) (k : Nat)
    (v : α) : alookup (ainsert l k v) k = some v := by
  show (if k = k then some v
    else alookup (l.filter (fun p => p.1 != k)) k) = some v
  rw [if_pos rfl]

theorem alookup_cons_ne {α : Type} (a : Nat) (b : α) (rest : List (Nat × α))
    (key : Nat) (h : a ≠ key) :
    alookup ((a, b) :: rest) key = alookup rest key := by
  show (if a = key then some b else alookup rest key) = alookup rest key
  rw [if_neg h]

theorem alookup_cons_self {α : Type} (a : Nat) (b : α)
    (rest : List (Nat × α)) : alookup ((a, b) :: rest) a = some b := by
  show (if a = a then some b else alookup rest a) = some b
  rw [if_pos rfl]

theorem alookup_filter_ne {α : Type} (l : List (Nat × α)) (k k2 : Nat)
    (h : k2 ≠ k) :
    alookup (l.filter (fun p => p.1 != k)) k2 = alookup l k2 := by
  induction l with
  | nil => rfl
  | cons p rest ih =>
      obtain ⟨a, b⟩ := p
      by_cases hp : a = k
      · rw [List.filter_cons_of_neg (by simp [hp])]
        rw [ih, alookup_cons_ne a b rest k2 (by omega)]
      · rw [List.filter_cons_of_pos (by simp [hp])]
        by_cases hak : a = k2
        · subst hak
          rw [alookup_cons_self, alookup_cons_self]
        · rw [alookup_cons_ne a b _ k2 hak, alookup_cons_ne a b rest k2 hak,
            ih]

theorem alookup_ainsert_ne {α : Type} (l : List (Nat × α)) (k k2 : Nat)
    (v : α) (h : k2 ≠ k) :
    alookup (ainsert l k v) k2 = alookup l k2 := by
  show (if k = k2 then some v
    else alookup (l.filter (fun p => p.1 != k)) k2) = alookup l k2
  rw [if_neg (fun hc => h hc.symm)]
  exact alookup_filter_ne l k k2 h

theorem uniqueFirstGo_spec : ∀ (l seen : List Nat),
    ((∀ x, x ∈ Emulator.uniqueFirstGo seen l ↔ (x ∈ l ∧ x ∉ seen)) ∧
     (Emulator.uniqueFirstGo seen l).Nodup) := by
  intro l
  induction l with
  | nil =>
      intro seen
      exact ⟨fun x => by simp [Emulator.uniqueFirstGo], by
        simp [Emulator.uniqueFirstGo]⟩
  | cons y ys ih =>
      intro seen
      by_cases hy : y ∈ seen
      · obtain ⟨hmem, hnd⟩ := ih seen
        refine ⟨fun x => ?_, by simpa [Emulator.uniqueFirstGo, hy] using hnd⟩
        rw [Emulator.uniqueFirstGo, if_pos hy, hmem x, List.mem_cons]
        constructor
        · rintro ⟨hx, hns⟩
          exact ⟨Or.inr hx, hns⟩
        · rintro ⟨hx | hx, hns⟩
          · exact absurd (hx ▸ hy) hns
          · exact ⟨hx, hns⟩
      · obtain ⟨hmem, hnd⟩ := ih (y :: seen)
        constructor
        · intro x
          rw [Emulator.uniqueFirstGo, if_neg hy, List.mem_cons, hmem x,
              List.mem_cons, List.mem_cons]
          constructor
          · rintro (hx | ⟨hx, hns⟩)
            · exact ⟨Or.inl hx, hx ▸ hy⟩
            · exact ⟨Or.inr hx, fun hc => hns (Or.inr hc)⟩
          · rintro ⟨hx | hx, hns⟩
            · exact Or.inl hx
            · by_cases hxy : x = y
              · exact Or.inl hxy
              · exact Or.inr ⟨hx, fun hc => (by
                  rcases hc with hc | hc
                  · exact hxy hc
                  · exact hns hc : False)⟩
        · rw [Emulator.uniqueFirstGo, if_neg hy, List.nodup_cons]
          refine ⟨fun hc => ?_, hnd⟩
          exact ((hmem y).mp hc).2 (List.mem_cons_self _ _)

theorem uniqueFirst_spec (l : List Nat) :
    ((∀ x, x ∈ Emulator.uniqueFirst l ↔ x ∈ l) ∧
     (Emulator.uniqueFirst l).Nodup) := by
  obtain ⟨hmem, hnd⟩ := uniqueFirstGo_spec l []
  exact ⟨fun x => by rw [Emulator.uniqueFirst, hmem x]; simp, by
    rw [Emulator.uniqueFirst]; exact hnd⟩

theorem addAllPins_spec : ∀ (pins : List Nat) (ps : PSpace),
    pins.Nodup → (∀ p ∈ pins, alookup ps.pin_to_pspace p = none) →
    ∃ ps2, Emulator.addAllPins ps pins = Except.ok ps2 ∧
      ps2.pspace_size = ps.pspace_size ∧
      ps2.warrior_to_pin = ps.warrior_to_pin ∧
      ps2.zero_index_values = ps.zero_index_values ∧
      (∀ p, alookup ps2.pin_to_pspace p =
        if p ∈ pins then some (List.replicate ps.pspace_size 0)
        else alookup ps.pin_to_pspace p) := by
  intro pins
  induction pins with
  | nil =>
      intro ps _ _
      exact ⟨ps, rfl, rfl, rfl, rfl, fun p => by simp⟩
  | cons pin rest ih =>
      intro ps hnd hnone
      have hpin : alookup ps.pin_to_pspace pin = none :=
        hnone pin (List.mem_cons_self _ _)
      have hadd : ps.add_pspace pin = Except.ok
          ⟨ps.pspace_size, ps.warrior_to_pin, ps.zero_index_values,
           ainsert ps.pin_to_pspace pin
             (List.replicate ps.pspace_size 0)⟩ := by
        unfold PSpace.add_pspace
        rw [hpin]
      rw [List.nodup_cons] at hnd
      have hrest : ∀ p ∈ rest,
          alookup (ainsert ps.pin_to_pspace pin
            (List.replicate ps.pspace_size 0)) p = none := by
        intro p hp
        rw [alookup_ainsert_ne _ _ _ _ (fun hc => hnd.1 (by
          rw [← hc]; exact hp))]
        exact hnone p (List.mem_cons_of_mem _ hp)
      obtain ⟨ps2, hfold, hsize, hwp, hz, hlook⟩ :=
        ih ⟨ps.pspace_size, ps.warrior_to_pin, ps.zero_index_values,
          ainsert ps.pin_to_pspace pin (List.replicate ps.pspace_size 0)⟩
          hnd.2 hrest
      refine ⟨ps2, ?_, hsize, hwp, hz, ?_⟩
      · unfold Emulator.addAllPins
        rw [hadd]
        exact hfold
      · intro p
        rw [hlook p]
        by_cases hp : p ∈ rest
        · rw [if_pos hp, if_pos (List.mem_cons_of_mem _ hp)]
        · rw [if_neg hp]
          by_cases hpp : p = pin
          · subst hpp
            rw [if_pos (List.mem_cons_self _ _), alookup_ainsert_self]
          · rw [alookup_ainsert_ne _ _ _ _ hpp,
              if_neg (by simp [hpp, hp])]

theorem assignAll_spec : ∀ (pairs : List (Nat × Nat)) (ps : PSpace),
    (∀ pw ∈ pairs, (alookup ps.pin_to_pspace pw.1).isSome) →
    ∃ ps2, Emulator.assignAll ps pairs = Except.ok ps2 ∧
      ps2.pspace_size = ps.pspace_size ∧
      ps2.pin_to_pspace = ps.pin_to_pspace ∧
      (∀ w, alookup ps2.warrior_to_pin w =
        match lastPinFor pairs w with
        | some p => some p
        | none => alookup ps.warrior_to_pin w) ∧
      (∀ w, alookup ps2.zero_index_values w =
        if (lastPinFor pairs w).isSome then some 0
        else alookup ps.zero_index_values w) := by
  intro pairs
  induction pairs with
  | nil =>
      intro ps _
      refine ⟨ps, rfl, rfl, rfl, fun w => by rw [lastPinFor], fun w => by
        rw [lastPinFor]; rfl⟩
  | cons pw rest ih =>
      intro ps hsome
      obtain ⟨pin, w0⟩ := pw
      have hp : (alookup ps.pin_to_pspace pin).isSome :=
        hsome _ (List.mem_cons_self _ _)
      obtain ⟨arr, harr⟩ := Option.isSome_iff_exists.mp hp
      have hassign : ps.assign_pspace w0 pin = Except.ok
          ⟨ps.pspace_size, ainsert ps.warrior_to_pin w0 pin,
           ainsert ps.zero_index_values w0 0, ps.pin_to_pspace⟩ := by
        unfold PSpace.assign_pspace
        rw [harr]
      have hrest : ∀ pw2 ∈ rest,
          (alookup (PSpace.mk ps.pspace_size
              (ainsert ps.warrior_to_pin w0 pin)
              (ainsert ps.zero_index_values w0 0)
              ps.pin_to_pspace).pin_to_pspace pw2.1).isSome := by
        intro pw2 hpw2
        exact hsome pw2 (List.mem_cons_of_mem _ hpw2)
      obtain ⟨ps2, hfold, hsize, hpin, hwlook, hzlook⟩ := ih _ hrest
      refine ⟨ps2, ?_, hsize, hpin, ?_, ?_⟩
      · unfold Emulator.assignAll
        rw [hassign]
        exact hfold
      · intro w
        rw [hwlook w]
        rw [lastPinFor]
        by_cases hw : w0 = w
        · rw [if_pos hw]
          cases hrest2 : lastPinFor rest w with
          | some p => simp [hrest2]
          | none =>
              simp only [hrest2, Option.getD]
              subst hw
              rw [alookup_ainsert_self]
        · rw [if_neg hw]
          cases hrest2 : lastPinFor rest w with
          | some p => rfl
          | none =>
              simp only []
              rw [alookup_ainsert_ne _ _ _ _ (fun hc => hw hc.symm)]
      · intro w
        rw [hzlook w]
        rw [lastPinFor]
        by_cases hw : w0 = w
        · rw [if_pos hw]
          cases hrest2 : lastPinFor rest w with
          | some p => simp [hrest2]
          | none =>
              simp only [hrest2]
              subst hw
              simp only [Option.isSome_some, if_pos, Option.isSome_none]
              rw [if_neg (by simp), alookup_ainsert_self]
        · rw [if_neg hw]
          cases hrest2 : lastPinFor rest w with
          | some p => rfl
          | none =>
              simp only [hrest2, Option.isSome_none]
              rw [if_neg (by simp), if_neg (by simp)]
              rw [alookup_ainsert_ne _ _ _ _ (fun hc => hw hc.symm)]

theorem validateWarriors_ok (e : Emulator) : ∀ (pairs : List (Nat × Nat)),
    (∀ pw ∈ pairs, pw.2 < e.config.warriors) →
    Emulator.validateWarriors e pairs = Except.ok () := by
  intro pairs
  induction pairs with
  | nil => intro _; rfl
  | cons pw rest ih =>
      intro h
      unfold Emulator.validateWarriors Emulator.validate_warrior_param
      rw [if_pos (h pw (List.mem_cons_self _ _))]
      exact ih (fun x hx => h x (List.mem_cons_of_mem _ hx))

/-- C10 (amended): when every warrior id in the map is valid,
initialize_pspace discards all previous PSPACE state and afterwards every
pin in the map holds a zero-filled array of length pspace_size (pins not in
the map hold nothing), every warrior maps to the pin of its LAST pair in the
map (warriors not in the map have no pin — a warrior listed under several
pins keeps only the last one), and every listed warrior's private index-0
slot is 0 (unlisted warriors have none). -/
theorem c10_initialize_pspace (e : Emulator) (pairs : List (Nat × Nat))
    (hval : ∀ pw ∈ pairs, pw.2 < e.config.warriors) :
    ∃ e2, e.initPspace pairs = Except.ok e2 ∧
      e2.pspace.pspace_size = e.config.pspace_size ∧
      (∀ pin, pin ∈ pairs.map Prod.fst →
        alookup e2.pspace.pin_to_pspace pin =
          some (List.replicate e.config.pspace_size 0)) ∧
      (∀ pin, pin ∉ pairs.map Prod.fst →
        alookup e2.pspace.pin_to_pspace pin = none) ∧
      (∀ w, alookup e2.pspace.warrior_to_pin w = lastPinFor pairs w) ∧
      (∀ w, alookup e2.pspace.zero_index_values w =
        if (lastPinFor pairs w).isSome then some 0 else none) ∧
      e2.pq = e.pq ∧ e2.core = e.core ∧ e2.config = e.config := by
  have hvw := validateWarriors_ok e pairs hval
  obtain ⟨humem, hund⟩ := uniqueFirst_spec (pairs.map Prod.fst)
  have hfresh : ∀ p ∈ Emulator.uniqueFirst (pairs.map Prod.fst),
      alookup (PSpace.new e.config.pspace_size).pin_to_pspace p = none :=
    fun p _ => rfl
  obtain ⟨ps1, hadd, hsize1, hwp1, hz1, hlook1⟩ :=
    addAllPins_spec (Emulator.uniqueFirst (pairs.map Prod.fst))
      (PSpace.new e.config.pspace_size) hund hfresh
  have hps1some : ∀ pw ∈ pairs, (alookup ps1.pin_to_pspace pw.1).isSome := by
    intro pw hpw
    rw [hlook1 pw.1,
        if_pos ((humem pw.1).mpr (List.mem_map_of_mem Prod.fst hpw))]
    rfl
  obtain ⟨ps2, hassign, hsize2, hpin2, hwlook2, hzlook2⟩ :=
    assignAll_spec pairs ps1 hps1some
  refine ⟨{ e with pspace := ps2 }, ?_, ?_, ?_, ?_, ?_, ?_, rfl, rfl, rfl⟩
  · unfold Emulator.initPspace
    rw [hvw]
    simp only []
    rw [hadd]
    simp only []
    rw [hassign]
  · rw [hsize2, hsize1]
    rfl
  · intro pin hpin
    rw [hpin2, hlook1, if_pos ((humem pin).mpr hpin)]
    rfl
  · intro pin hpin
    rw [hpin2, hlook1, if_neg (fun hc => hpin ((humem pin).mp hc))]
    rfl
  · intro w
    rw [hwlook2 w]
    cases hlp : lastPinFor pairs w with
    | some p => rfl
    | none => rw [hwp1]; rfl
  · intro w
    rw [hzlook2 w]
    by_cases hlp : (lastPinFor pairs w).isSome
    · rw [if_pos hlp, if_pos hlp]
    · rw [if_neg hlp, if_neg hlp, hz1]
      rfl

/-- A concrete emulator for the C10 counterexample and witness. -/
def c10emu : Emulator :=
  ⟨⟨[[], []], 4⟩, List.replicate 4 defaultCI, PSpace.new 2, ⟨4, 2, 2, 4⟩⟩

/-- Counterexample to C10 as stated: warrior 0 is listed with pin 0 and then
pin 1; after initialize_pspace it maps only to pin 1, so pin 0's array is not
shared by all warriors listed with pin 0. -/
theorem c10_counterexample :
    (c10emu.initPspace [(0, 0), (1, 0)]).map
      (fun e2 => alookup e2.pspace.warrior_to_pin 0) = Except.ok (some 1) ∧
    some (1 : Nat) ≠ some (0 : Nat) := by decide

/-- Witness for C10 (amended): two warriors sharing pin 5. -/
theorem c10_witness :
    ∃ e2, c10emu.initPspace [(5, 0), (5, 1)] = Except.ok e2 ∧
      e2.pspace.pspace_size = c10emu.config.pspace_size ∧
      (∀ pin, pin ∈ [(5, 0), (5, 1)].map Prod.fst →
        alookup e2.pspace.pin_to_pspace pin =
          some (List.replicate c10emu.config.pspace_size 0)) ∧
      (∀ pin, pin ∉ [(5, 0), (5, 1)].map Prod.fst →
        alookup e2.pspace.pin_to_pspace pin = none) ∧
      (∀ w, alookup e2.pspace.warrior_to_pin w =
        lastPinFor [(5, 0), (5, 1)] w) ∧
      (∀ w, alookup e2.pspace.zero_index_values w =
        if (lastPinFor [(5, 0), (5, 1)] w).isSome then some 0 else none) ∧
      e2.pq = c10emu.pq ∧ e2.core = c10emu.core ∧
      e2.config = c10emu.config :=
  c10_initialize_pspace c10emu [(5, 0), (5, 1)] (by decide)

/-! ## C6: the process-queue cap invariant -/

/-- Every queue is within the cap. -/
def queuesOk (pq : ProcessQueueSet) : Prop :=
  ∀ q ∈ pq.queues, q.length ≤ pq.maxProcesses

theorem push_back_inv (pq : ProcessQueueSet) (v w : Nat)
    (pq2 : ProcessQueueSet) (h : pq.push_back v w = Except.ok pq2)
    (hok : queuesOk pq) :
    queuesOk pq2 ∧ pq2.maxProcesses = pq.maxProcesses := by
  unfold ProcessQueueSet.push_back at h
  split at h
  · exact Except.noConfusion h
  · rename_i q heq
    split at h
    · rename_i hlt
      injection h with h2
      subst h2
      refine ⟨?_, rfl⟩
      intro l hl
      rcases mem_set_cases hl with h3 | h3
      · rw [h3, List.length_append]
        simp only [List.length_singleton]
        omega
      · exact hok l h3
    · injection h with h2
      subst h2
      exact ⟨hok, rfl⟩

theorem pop_inv (pq : ProcessQueueSet) (w : Nat) (r : Option Nat)
    (pq2 : ProcessQueueSet) (h : pq.pop w = Except.ok (r, pq2))
    (hok : queuesOk pq) :
    queuesOk pq2 ∧ pq2.maxProcesses = pq.maxProcesses := by
  unfold ProcessQueueSet.pop at h
  split at h
  · exact Except.noConfusion h
  · injection h with h2
    injection h2 with h3 h4
    subst h4
    exact ⟨hok, rfl⟩
  · rename_i p rest heq
    injection h with h2
    injection h2 with h3 h4
    subst h4
    refine ⟨?_, rfl⟩
    intro l hl
    rcases mem_set_cases hl with h5 | h5
    · have hq := hok _ (List.get?_mem heq)
      rw [h5]
      simp only [List.length_cons] at hq
      dsimp only
      omega
    · exact hok l h5

theorem replace_queue_inv (pq : ProcessQueueSet) (w : Nat) (l : List Nat)
    (pq2 : ProcessQueueSet) (h : pq.replace_queue w l = Except.ok pq2)
    (hok : queuesOk pq) :
    queuesOk pq2 ∧ pq2.maxProcesses = pq.maxProcesses := by
  unfold ProcessQueueSet.replace_queue at h
  split at h
  · exact Except.noConfusion h
  · split at h
    · exact Except.noConfusion h
    · rename_i hlen
      injection h with h2
      subst h2
      refine ⟨?_, rfl⟩
      intro q hq
      rcases mem_set_cases hq with h3 | h3
      · rw [h3]
        dsimp only
        omega
      · exact hok q h3

theorem reset_queues_ok (pq : ProcessQueueSet) :
    queuesOk pq.reset_queues ∧
    pq.reset_queues.maxProcesses = pq.maxProcesses := by
  refine ⟨?_, rfl⟩
  intro q hq
  unfold ProcessQueueSet.reset_queues at hq
  simp only [] at hq
  rw [List.eq_of_mem_replicate hq]
  exact Nat.zero_le _

theorem dat_op_pq (wid : Nat) (regs : RegisterValues) (N : Nat)
    (s s2 : OpState) (h : dat_op wid regs N s = Except.ok s2)
    (hok : queuesOk s.pq) :
    queuesOk s2.pq ∧ s2.pq.maxProcesses = s.pq.maxProcesses := by
  injection h with h2
  subst h2
  exact ⟨hok, rfl⟩

theorem mov_op_pq (wid : Nat) (regs : RegisterValues) (N : Nat)
    (s s2 : OpState) (h : mov_op wid regs N s = Except.ok s2)
    (hok : queuesOk s.pq) :
    queuesOk s2.pq ∧ s2.pq.maxProcesses = s.pq.maxProcesses := by
  unfold mov_op at h
  try simp only [] at h
  repeat' split at h
  all_goals first
    | exact Except.noConfusion h
    | (injection h with h2; subst h2;
       first
         | exact ⟨hok, rfl⟩
         | exact push_back_inv _ _ _ _ (by assumption) hok)

theorem arithmetic_op_pq (wid : Nat) (regs : RegisterValues) (N : Nat)
    (s s2 : OpState) (h : arithmetic_op wid regs N s = Except.ok s2)
    (hok : queuesOk s.pq) :
    queuesOk s2.pq ∧ s2.pq.maxProcesses = s.pq.maxProcesses := by
  unfold arithmetic_op at h
  try simp only [] at h
  repeat' split at h
  all_goals first
    | exact Except.noConfusion h
    | (injection h with h2; subst h2;
       first
         | exact ⟨hok, rfl⟩
         | exact push_back_inv _ _ _ _ (by assumption) hok)

theorem jmp_op_pq (wid : Nat) (regs : RegisterValues) (N : Nat)
    (s s2 : OpState) (h : jmp_op wid regs N s = Except.ok s2)
    (hok : queuesOk s.pq) :
    queuesOk s2.pq ∧ s2.pq.maxProcesses = s.pq.maxProcesses := by
  unfold jmp_op at h
  try simp only [] at h
  repeat' split at h
  all_goals first
    | exact Except.noConfusion h
    | (injection h with h2; subst h2;
       first
         | exact ⟨hok, rfl⟩
         | exact push_back_inv _ _ _ _ (by assumption) hok)

theorem jmz_op_pq (wid : Nat) (regs : RegisterValues) (N : Nat)
    (s s2 : OpState) (h : jmz_op wid regs N s = Except.ok s2)
    (hok : queuesOk s.pq) :
    queuesOk s2.pq ∧ s2.pq.maxProcesses = s.pq.maxProcesses := by
  unfold jmz_op at h
  try simp only [] at h
  repeat' split at h
  all_goals first
    | exact Except.noConfusion h
    | (injection h with h2; subst h2;
       first
         | exact ⟨hok, rfl⟩
         | exact push_back_inv _ _ _ _ (by assumption) hok)

theorem jmn_op_pq (wid : Nat) (regs : RegisterValues) (N : Nat)
    (s s2 : OpState) (h : jmn_op wid regs N s = Except.ok s2)
    (hok : queuesOk s.pq) :
    queuesOk s2.pq ∧ s2.pq.maxProcesses = s.pq.maxProcesses := by
  unfold jmn_op at h
  try simp only [] at h
  repeat' split at h
  all_goals first
    | exact Except.noConfusion h
    | (injection h with h2; subst h2;
       first
         | exact ⟨hok, rfl⟩
         | exact push_back_inv _ _ _ _ (by assumption) hok)

theorem djn_op_pq (wid : Nat) (regs : RegisterValues) (N : Nat)
    (s s2 : OpState) (h : djn_op wid regs N s = Except.ok s2)
    (hok : queuesOk s.pq) :
    queuesOk s2.pq ∧ s2.pq.maxProcesses = s.pq.maxProcesses := by
  unfold djn_op at h
  try simp only [] at h
  repeat' split at h
  all_goals first
    | exact Except.noConfusion h
    | (injection h with h2; subst h2;
       first
         | exact ⟨hok, rfl⟩
         | exact push_back_inv _ _ _ _ (by assumption) hok)

theorem spl_op_pq (wid : Nat) (regs : RegisterValues) (N : Nat)
    (s s2 : OpState) (h : spl_op wid regs N s = Except.ok s2)
    (hok : queuesOk s.pq) :
    queuesOk s2.pq ∧ s2.pq.maxProcesses = s.pq.maxProcesses := by
  unfold spl_op at h
  cases hof : offset regs.current.idx 1 N with
  | error err => rw [hof] at h; exact Except.noConfusion h
  | ok next =>
      rw [hof] at h
      simp only [] at h
      cases hp1 : s.pq.push_back next wid with
      | error err => rw [hp1] at h; exact Except.noConfusion h
      | ok pq1 =>
          rw [hp1] at h
          simp only [] at h
          obtain ⟨hok1, hmax1⟩ := push_back_inv _ _ _ _ hp1 hok
          cases hp2 : pq1.push_back regs.a.idx wid with
          | error err => rw [hp2] at h; exact Except.noConfusion h
          | ok pq2 =>
              rw [hp2] at h
              simp only [] at h
              obtain ⟨hok2, hmax2⟩ := push_back_inv _ _ _ _ hp2 hok1
              injection h with h2
              subst h2
              exact ⟨hok2, hmax2.trans hmax1⟩

theorem slt_op_pq (wid : Nat) (regs : RegisterValues) (N : Nat)
    (s s2 : OpState) (h : slt_op wid regs N s = Except.ok s2)
    (hok : queuesOk s.pq) :
    queuesOk s2.pq ∧ s2.pq.maxProcesses = s.pq.maxProcesses := by
  unfold slt_op at h
  try simp only [] at h
  repeat' split at h
  all_goals first
    | exact Except.noConfusion h
    | (injection h with h2; subst h2;
       first
         | exact ⟨hok, rfl⟩
         | exact push_back_inv _ _ _ _ (by assumption) hok)

theorem cmp_op_pq (wid : Nat) (regs : RegisterValues) (N : Nat)
    (s s2 : OpState) (h : cmp_op wid regs N s = Except.ok s2)
    (hok : queuesOk s.pq) :
    queuesOk s2.pq ∧ s2.pq.maxProcesses = s.pq.maxProcesses := by
  unfold cmp_op at h
  try simp only [] at h
  repeat' split at h
  all_goals first
    | exact Except.noConfusion h
    | (injection h with h2; subst h2;
       first
         | exact ⟨hok, rfl⟩
         | exact push_back_inv _ _ _ _ (by assumption) hok)

theorem sne_op_pq (wid : Nat) (regs : RegisterValues) (N : Nat)
    (s s2 : OpState) (h : sne_op wid regs N s = Except.ok s2)
    (hok : queuesOk s.pq) :
    queuesOk s2.pq ∧ s2.pq.maxProcesses = s.pq.maxProcesses := by
  unfold sne_op at h
  try simp only [] at h
  repeat' split at h
  all_goals first
    | exact Except.noConfusion h
    | (injection h with h2; subst h2;
       first
         | exact ⟨hok, rfl⟩
         | exact push_back_inv _ _ _ _ (by assumption) hok)

theorem nop_op_pq (wid : Nat) (regs : RegisterValues) (N : Nat)
    (s s2 : OpState) (h : nop_op wid regs N s = Except.ok s2)
    (hok : queuesOk s.pq) :
    queuesOk s2.pq ∧ s2.pq.maxProcesses = s.pq.maxProcesses := by
  unfold nop_op at h
  try simp only [] at h
  repeat' split at h
  all_goals first
    | exact Except.noConfusion h
    | (injection h with h2; subst h2;
       first
         | exact ⟨hok, rfl⟩
         | exact push_back_inv _ _ _ _ (by assumption) hok)

theorem ldp_op_pq (wid : Nat) (regs : RegisterValues) (N : Nat)
    (s s2 : OpState) (h : ldp_op wid regs N s = Except.ok s2)
    (hok : queuesOk s.pq) :
    queuesOk s2.pq ∧ s2.pq.maxProcesses = s.pq.maxProcesses := by
  unfold ldp_op at h
  try simp only [] at h
  repeat' split at h
  all_goals first
    | exact Except.noConfusion h
    | (injection h with h2; subst h2;
       first
         | exact ⟨hok, rfl⟩
         | exact push_back_inv _ _ _ _ (by assumption) hok)

theorem stp_op_pq (wid : Nat) (regs : RegisterValues) (N : Nat)
    (s s2 : OpState) (h : stp_op wid regs N s = Except.ok s2)
    (hok : queuesOk s.pq) :
    queuesOk s2.pq ∧ s2.pq.maxProcesses = s.pq.maxProcesses := by
  unfold stp_op at h
  try simp only [] at h
  repeat' split at h
  all_goals first
    | exact Except.noConfusion h
    | (injection h with h2; subst h2;
       first
         | exact ⟨hok, rfl⟩
         | exact push_back_inv _ _ _ _ (by assumption) hok)

theorem step_emulator_pq (e : Emulator) (pc wid : Nat) (e2 : Emulator)
    (h : e.step_emulator pc wid = Except.ok e2) (hok : queuesOk e.pq) :
    queuesOk e2.pq ∧ e2.pq.maxProcesses = e.pq.maxProcesses ∧
    e2.config = e.config := by
  unfold Emulator.step_emulator at h
  try simp only [] at h
  cases hev : evaluate pc e.core with
  | error err => rw [hev] at h; exact Except.noConfusion h
  | ok pr =>
      obtain ⟨regs, core1⟩ := pr
      rw [hev] at h
      simp only [] at h
      split at h
      · exact Except.noConfusion h
      · cases hop : regs.current.instr.opcode <;>
          rw [hop] at h <;>
          simp only [] at h <;>
          split at h <;>
          first
            | exact Except.noConfusion h
            | (injection h with h2; subst h2;
               first
                 | (obtain ⟨a, b⟩ :=
                      dat_op_pq _ _ _ _ _ (by assumption) hok
                    exact ⟨a, b, rfl⟩)
                 | (obtain ⟨a, b⟩ :=
                      mov_op_pq _ _ _ _ _ (by assumption) hok
                    exact ⟨a, b, rfl⟩)
                 | (obtain ⟨a, b⟩ :=
                      arithmetic_op_pq _ _ _ _ _ (by assumption) hok
                    exact ⟨a, b, rfl⟩)
                 | (obtain ⟨a, b⟩ :=
                      jmp_op_pq _ _ _ _ _ (by assumption) hok
                    exact ⟨a, b, rfl⟩)
                 | (obtain ⟨a, b⟩ :=
                      jmz_op_pq _ _ _ _ _ (by assumption) hok
                    exact ⟨a, b, rfl⟩)
                 | (obtain ⟨a, b⟩ :=
                      jmn_op_pq _ _ _ _ _ (by assumption) hok
                    exact ⟨a, b, rfl⟩)
                 | (obtain ⟨a, b⟩ :=
                      djn_op_pq _ _ _ _ _ (by assumption) hok
                    exact ⟨a, b, rfl⟩)
                 | (obtain ⟨a, b⟩ :=
                      spl_op_pq _ _ _ _ _ (by assumption) hok
                    exact ⟨a, b, rfl⟩)
                 | (obtain ⟨a, b⟩ :=
                      slt_op_pq _ _ _ _ _ (by assumption) hok
                    exact ⟨a, b, rfl⟩)
                 | (obtain ⟨a, b⟩ :=
                      cmp_op_pq _ _ _ _ _ (by assumption) hok
                    exact ⟨a, b, rfl⟩)
                 | (obtain ⟨a, b⟩ :=
                      sne_op_pq _ _ _ _ _ (by assumption) hok
                    exact ⟨a, b, rfl⟩)
                 | (obtain ⟨a, b⟩ :=
                      nop_op_pq _ _ _ _ _ (by assumption) hok
                    exact ⟨a, b, rfl⟩)
                 | (obtain ⟨a, b⟩ :=
                      ldp_op_pq _ _ _ _ _ (by assumption) hok
                    exact ⟨a, b, rfl⟩)
                 | (obtain ⟨a, b⟩ :=
                      stp_op_pq _ _ _ _ _ (by assumption) hok
                    exact ⟨a, b, rfl⟩))

theorem step_pq (e : Emulator) (w : Nat) (r : Option Nat) (e2 : Emulator)
    (h : e.step w = Except.ok (r, e2)) (hok : queuesOk e.pq) :
    queuesOk e2.pq ∧ e2.pq.maxProcesses = e.pq.maxProcesses ∧
    e2.config = e.config := by
  unfold Emulator.step Emulator.validate_warrior_param at h
  repeat' split at h
  all_goals first
    | exact Except.noConfusion h
    | (injection h with h2; injection h2 with h3 h4; subst h4;
       first
         | (obtain ⟨a, b⟩ := pop_inv _ _ _ _ (by assumption) hok
            exact ⟨a, b, rfl⟩)
         | (obtain ⟨a, b⟩ := pop_inv _ _ _ _ (by assumption) hok
            obtain ⟨c, d, g⟩ := step_emulator_pq _ _ _ _ (by assumption) a
            exact ⟨c, d.trans b, g⟩))

theorem stepList_pq : ∀ (ws : List Nat) (e e2 : Emulator),
    Emulator.stepList e ws = Except.ok e2 → queuesOk e.pq →
    queuesOk e2.pq ∧ e2.pq.maxProcesses = e.pq.maxProcesses ∧
    e2.config = e.config := by
  intro ws
  induction ws with
  | nil =>
      intro e e2 h hok
      injection h with h2
      subst h2
      exact ⟨hok, rfl, rfl⟩
  | cons w rest ih =>
      intro e e2 h hok
      unfold Emulator.stepList at h
      cases hs : e.step w with
      | error err => rw [hs] at h; exact Except.noConfusion h
      | ok pr =>
          obtain ⟨r, e1⟩ := pr
          rw [hs] at h
          simp only [] at h
          obtain ⟨a, b, c⟩ := step_pq _ _ _ _ hs hok
          obtain ⟨d, f, g⟩ := ih e1 e2 h a
          exact ⟨d, f.trans b, g.trans c⟩

theorem run_pq : ∀ (cycles : Nat) (e : Emulator) (wr k : Nat)
    (e2 : Emulator), e.run cycles wr = Except.ok (k, e2) → queuesOk e.pq →
    queuesOk e2.pq ∧ e2.pq.maxProcesses = e.pq.maxProcesses ∧
    e2.config = e.config := by
  intro cycles
  induction cycles with
  | zero =>
      intro e wr k e2 h hok
      unfold Emulator.run at h
      injection h with h2
      injection h2 with h3 h4
      subst h4
      exact ⟨hok, rfl, rfl⟩
  | succ c ih =>
      intro e wr k e2 h hok
      unfold Emulator.run at h
      try simp only [] at h
      split at h
      · cases hsl : Emulator.stepList e e.active_warrior_set with
        | error err => rw [hsl] at h; exact Except.noConfusion h
        | ok e1 =>
            rw [hsl] at h
            simp only [] at h
            cases hr : e1.run c wr with
            | error err => rw [hr] at h; exact Except.noConfusion h
            | ok pr =>
                obtain ⟨k1, e3⟩ := pr
                rw [hr] at h
                simp only [] at h
                injection h with h2
                injection h2 with h3 h4
                subst h4
                obtain ⟨a, b, cc⟩ := stepList_pq _ _ _ hsl hok
                obtain ⟨d, f, g⟩ := ih e1 wr k1 e3 hr a
                exact ⟨d, f.trans b, g.trans cc⟩
      · injection h with h2
        injection h2 with h3 h4
        subst h4
        exact ⟨hok, rfl, rfl⟩

theorem new_inv (cs ps w p : Nat) (e : Emulator)
    (h : Emulator.new cs ps w p = Except.ok e) :
    queuesOk e.pq ∧ e.pq.maxProcesses = e.config.processes := by
  unfold Emulator.new at h
  split at h
  · exact Except.noConfusion h
  · split at h
    · exact Except.noConfusion h
    · injection h with h2
      subst h2
      refine ⟨?_, rfl⟩
      intro q hq
      simp only [ProcessQueueSet.new] at hq
      rw [List.eq_of_mem_replicate hq]
      exact Nat.zero_le _

theorem replace_process_queue_pq (e : Emulator) (w : Nat) (l : List Nat)
    (e2 : Emulator) (h : e.replace_process_queue w l = Except.ok e2)
    (hok : queuesOk e.pq) :
    queuesOk e2.pq ∧ e2.pq.maxProcesses = e.pq.maxProcesses ∧
    e2.config = e.config := by
  unfold Emulator.replace_process_queue at h
  try simp only [] at h
  repeat' split at h
  all_goals first
    | exact Except.noConfusion h
    | (injection h with h2; subst h2;
       obtain ⟨a, b⟩ := replace_queue_inv _ _ _ _ (by assumption) hok
       exact ⟨a, b, rfl⟩)

theorem reset_core_pq (e : Emulator) (i ia ib : Nat) (e2 : Emulator)
    (h : e.reset_core i ia ib = Except.ok e2) :
    queuesOk e2.pq ∧ e2.pq.maxProcesses = e.pq.maxProcesses ∧
    e2.config = e.config := by
  unfold Emulator.reset_core at h
  try simp only [] at h
  repeat' split at h
  all_goals first
    | exact Except.noConfusion h
    | (injection h with h2; subst h2;
       obtain ⟨a, b⟩ := reset_queues_ok e.pq
       exact ⟨a, b, rfl⟩)

theorem write_core_pq (e : Emulator) (addr insn ia ib : Nat) (e2 : Emulator)
    (h : e.write_core addr insn ia ib = Except.ok e2)
    (hok : queuesOk e.pq) :
    queuesOk e2.pq ∧ e2.pq.maxProcesses = e.pq.maxProcesses ∧
    e2.config = e.config := by
  unfold Emulator.write_core Emulator.validate_addr_param at h
  try simp only [] at h
  repeat' split at h
  all_goals first
    | exact Except.noConfusion h
    | (injection h with h2; subst h2; exact ⟨hok, rfl, rfl⟩)

theorem initPspace_pq (e : Emulator) (m : List (Nat × Nat)) (e2 : Emulator)
    (h : e.initPspace m = Except.ok e2) (hok : queuesOk e.pq) :
    queuesOk e2.pq ∧ e2.pq.maxProcesses = e.pq.maxProcesses ∧
    e2.config = e.config := by
  unfold Emulator.initPspace at h
  try simp only [] at h
  repeat' split at h
  all_goals first
    | exact Except.noConfusion h
    | (injection h with h2; subst h2; exact ⟨hok, rfl, rfl⟩)

/-- Emulator states reachable through the public operations: construction,
step, run, replace_process_queue, reset_core, write_core, and
initialize_pspace (read-only operations do not change state). -/
inductive Reachable : Emulator → Prop where
  | fromNew (cs ps w p : Nat) (e : Emulator)
      (h : Emulator.new cs ps w p = Except.ok e) : Reachable e
  | fromStep (e : Emulator) (w : Nat) (r : Option Nat) (e2 : Emulator)
      (hr : Reachable e) (h : e.step w = Except.ok (r, e2)) : Reachable e2
  | fromRun (e : Emulator) (c wr k : Nat) (e2 : Emulator)
      (hr : Reachable e) (h : e.run c wr = Except.ok (k, e2)) : Reachable e2
  | fromReplace (e : Emulator) (w : Nat) (l : List Nat) (e2 : Emulator)
      (hr : Reachable e)
      (h : e.replace_process_queue w l = Except.ok e2) : Reachable e2
  | fromReset (e : Emulator) (i ia ib : Nat) (e2 : Emulator)
      (hr : Reachable e) (h : e.reset_core i ia ib = Except.ok e2) :
      Reachable e2
  | fromWrite (e : Emulator) (addr insn ia ib : Nat) (e2 : Emulator)
      (hr : Reachable e)
      (h : e.write_core addr insn ia ib = Except.ok e2) : Reachable e2
  | fromInitPspace (e : Emulator) (m : List (Nat × Nat)) (e2 : Emulator)
      (hr : Reachable e) (h : e.initPspace m = Except.ok e2) : Reachable e2

/-- C6: in every emulator state reachable through construction, step, run,
replace_process_queue, reset_core, and the instruction handlers they invoke,
no warrior's process queue ever exceeds the configured processes cap:
push_back appends only below the cap and otherwise discards, and
replace_queue rejects longer inputs. -/
theorem c6_queue_cap (e : Emulator) (h : Reachable e) :
    ∀ q ∈ e.pq.queues, q.length ≤ e.config.processes := by
  have main : queuesOk e.pq ∧ e.pq.maxProcesses = e.config.processes := by
    induction h with
    | fromNew cs ps w p e h => exact new_inv cs ps w p e h
    | fromStep e w r e2 hr h ih =>
        obtain ⟨a, b, c⟩ := step_pq e w r e2 h ih.1
        exact ⟨a, by rw [b, ih.2, c]⟩
    | fromRun e c wr k e2 hr h ih =>
        obtain ⟨a, b, cc⟩ := run_pq c e wr k e2 h ih.1
        exact ⟨a, by rw [b, ih.2, cc]⟩
    | fromReplace e w l e2 hr h ih =>
        obtain ⟨a, b, c⟩ := replace_process_queue_pq e w l e2 h ih.1
        exact ⟨a, by rw [b, ih.2, c]⟩
    | fromReset e i ia ib e2 hr h ih =>
        obtain ⟨a, b, c⟩ := reset_core_pq e i ia ib e2 h
        exact ⟨a, by rw [b, ih.2, c]⟩
    | fromWrite e addr insn ia ib e2 hr h ih =>
        obtain ⟨a, b, c⟩ := write_core_pq e addr insn ia ib e2 h ih.1
        exact ⟨a, by rw [b, ih.2, c]⟩
    | fromInitPspace e m e2 hr h ih =>
        obtain ⟨a, b, c⟩ := initPspace_pq e m e2 h ih.1
        exact ⟨a, by rw [b, ih.2, c]⟩
  intro q hq
  have hle := main.1 q hq
  rw [main.2] at hle
  exact hle

/-- The emulator produced by new(4, 0, 1, 3), for the C6 witness. -/
def c6emu : Emulator :=
  ⟨⟨[[]], 3⟩, List.replicate 4 defaultCI, PSpace.new 0, ⟨4, 0, 1, 3⟩⟩

/-- Witness for C6 at the freshly constructed emulator new(4, 0, 1, 3): its
single (empty) queue is within the cap. -/
theorem c6_witness : ([] : List Nat).length ≤ c6emu.config.processes :=
  c6_queue_cap c6emu (Reachable.fromNew 4 0 1 3 c6emu (by decide)) []
    (by decide)

end Marzipan
